import Mathlib

/-!
# Longest palindromic substring (`palindrome.cpp`)

A shallow embedding of `extend`, `valid`, `all_centered_palindromes` and
`find_longest_palindrome`, followed by the properties established for them.

Modelling conventions.
* C `int` values are natural numbers.  Every subtraction of the source is kept
  as written; the bounds that make each of them exact are proved below.  The
  buffer of the caller holds at most `1000000` symbols, so `2 * n + 1` stays far
  below `2 ^ 31` and no wrap-around is modelled.
* C arrays are lists.  A read is `List.getD` and a write is `List.set`, so a
  write beyond the end of a block is dropped and a read beyond it yields the
  default value.  The only access of the source that leaves its block is
  `temp[n]` in the last iteration of the first loop of
  `find_longest_palindrome` (`evenStart_last`); the second loop never reads it.
* The `while` loop is a structurally recursive function with a fuel argument
  that is started at `len`; `SweepInv.extendLoop_exit` shows that the loop is
  left because its condition fails, never because the fuel is used up.
* The sweep state carries one extra field, `ticks`, that counts the executions
  of the body of the `while` loop.  Nothing in the computation reads it.
-/

namespace Palindrome

/-- Result record of the source: `typedef struct { int start; int length; } output`. -/
structure output where
  start : Nat
  length : Nat
  deriving DecidableEq, Repr

/-- One iteration of the `for` loop of `extend`:
`res[2*i] = '#'; res[2*i+1] = s[i];`. -/
def extendStep (s : List Char) (res : List Char) (i : Nat) : List Char :=
  (res.set (2 * i) '#').set (2 * i + 1) (s.getD i '#')

/-- Source `extend(s, n)`: a block of `2*n+1` symbols is allocated, the loop
fills the cells `2*i` and `2*i+1` for `i < n`, and the last cell is set to the
separator.  The freshly allocated block holds arbitrary bytes, taken here to be
NUL; every cell is overwritten. -/
def extend (s : List Char) (n : Nat) : List Char :=
  ((List.range n).foldl (extendStep s) (List.replicate (2 * n + 1) (Char.ofNat 0))).set (2 * n) '#'

/-- Source `min`. -/
def min (a b : Nat) : Nat := if a ≤ b then a else b

/-- Source `max`. -/
def max (a b : Nat) : Nat := if a ≥ b then a else b

/-- Source `valid(len, cen, rad)`:
`(rad <= len/2) && (cen < len - rad) && (cen >= rad)`. -/
def valid (len cen rad : Nat) : Bool :=
  decide (rad ≤ len / 2) && decide (cen < len - rad) && decide (cen ≥ rad)

/-- State of the sweep in `all_centered_palindromes`: the table `result`, the
running `currC` and `currR`, and the counter `ticks` of executions of the body
of the `while` loop. -/
structure Sweep where
  result : List Nat
  currC : Nat
  currR : Nat
  ticks : Nat
  deriving DecidableEq, Repr

/-- Condition of the `while` loop at index `i`:
`valid(len, i, 1 + result[i]) && proc[i+1+result[i]] == proc[i-1-result[i]]`. -/
def extendCond (proc : List Char) (len i : Nat) (st : Sweep) : Bool :=
  valid len i (1 + st.result.getD i 0) &&
    (proc.getD (i + 1 + st.result.getD i 0) '#' == proc.getD (i - 1 - st.result.getD i 0) '#')

/-- The `while` loop at index `i`; its body is `result[i]++`. -/
def extendLoop (proc : List Char) (len i : Nat) : Nat → Sweep → Sweep
  | 0, st => st
  | fuel + 1, st =>
    if extendCond proc len i st then
      extendLoop proc len i fuel
        { st with result := st.result.set i (st.result.getD i 0 + 1), ticks := st.ticks + 1 }
    else st

/-- First statement of the `for` body: the seed of `result[i]`. -/
def seedStep (st : Sweep) (i : Nat) : Sweep :=
  let isym := 2 * st.currC - i
  if st.currR > i then
    { st with result := st.result.set i (min (st.currR - i) (st.result.getD isym 0)) }
  else
    { st with result := st.result.set i 0 }

/-- Last statement of the `for` body: the update of `currR` and `currC`. -/
def edgeStep (st : Sweep) (i : Nat) : Sweep :=
  if i + st.result.getD i 0 > st.currR then
    { st with currR := i + st.result.getD i 0, currC := i }
  else st

/-- Body of the `for` loop of `all_centered_palindromes` at index `i`. -/
def sweepStep (proc : List Char) (len : Nat) (st : Sweep) (i : Nat) : Sweep :=
  edgeStep (extendLoop proc len i len (seedStep st i)) i

/-- The whole `for` loop of `all_centered_palindromes` over a block `proc`
of declared length `len`, started from the zeroed table. -/
def sweep (proc : List Char) (len : Nat) : Sweep :=
  (List.range len).foldl (sweepStep proc len) ⟨List.replicate len 0, 0, 0, 0⟩

/-- Source `all_centered_palindromes(s, n)`. -/
def all_centered_palindromes (s : List Char) (n : Nat) : List Nat :=
  (sweep (extend s n) (2 * n + 1)).result

/-- Start index of the candidate of the odd center, `i - 1 - (all[2*i-1]/2)`. -/
def oddStart (all : List Nat) (i : Nat) : Nat := i - 1 - all.getD (2 * i - 1) 0 / 2

/-- Length of the candidate of the odd center,
`all[2*i-1] + 1 - (all[2*i-1] & 1)`. -/
def oddLength (all : List Nat) (i : Nat) : Nat :=
  all.getD (2 * i - 1) 0 + 1 - all.getD (2 * i - 1) 0 % 2

/-- Start index of the candidate of the even center, `i - (all[2*i]/2)`. -/
def evenStart (all : List Nat) (i : Nat) : Nat := i - all.getD (2 * i) 0 / 2

/-- Length of the candidate of the even center, `all[2*i]`. -/
def evenLength (all : List Nat) (i : Nat) : Nat := all.getD (2 * i) 0

/-- Statement `temp[temp_start] = max(temp[temp_start], temp_length)`. -/
def record (temp : List Nat) (temp_start temp_length : Nat) : List Nat :=
  temp.set temp_start (max (temp.getD temp_start 0) temp_length)

/-- Body of the first loop of `find_longest_palindrome` at `i`. -/
def collectStep (all : List Nat) (temp : List Nat) (i : Nat) : List Nat :=
  record (record temp (oddStart all i) (oddLength all i)) (evenStart all i) (evenLength all i)

/-- First loop of `find_longest_palindrome`: `for (int i = 1; i <= n; i++)`
over the zeroed `n`-entry table `temp`. -/
def collect (all : List Nat) (n : Nat) : List Nat :=
  (List.range' 1 n).foldl (collectStep all) (List.replicate n 0)

/-- Body of the second loop of `find_longest_palindrome` at `j`. -/
def pickStep (temp : List Nat) (res : output) (j : Nat) : output :=
  if temp.getD j 0 > res.length then { start := j, length := temp.getD j 0 } else res

/-- Source `find_longest_palindrome(s, n)`. -/
def find_longest_palindrome (s : List Char) (n : Nat) : output :=
  (List.range n).foldl (pickStep (collect (all_centered_palindromes s n) n)) ⟨0, 1⟩

/-! ## Predicates and auxiliary definitions used in the statements -/

/-- Radius `r` around index `i` stays inside a block of `len` cells. -/
def Fits (len i r : Nat) : Prop := r ≤ i ∧ i + r < len

/-- The cells of `proc` at distance at most `r` from `i` mirror each other. -/
def PalAt (proc : List Char) (i r : Nat) : Prop :=
  ∀ d, d ≤ r → proc.getD (i + d) '#' = proc.getD (i - d) '#'

/-- `r` is a palindromic radius at `i` inside the block. -/
def IsRadius (proc : List Char) (len i r : Nat) : Prop := Fits len i r ∧ PalAt proc i r

/-- `r` is the largest palindromic radius at `i` inside the block. -/
def IsMaxRadius (proc : List Char) (len i r : Nat) : Prop :=
  IsRadius proc len i r ∧ ¬ IsRadius proc len i (r + 1)

instance (len i r : Nat) : Decidable (Fits len i r) := by unfold Fits; infer_instance
instance (proc : List Char) (i r : Nat) : Decidable (PalAt proc i r) := by
  unfold PalAt; infer_instance
instance (proc : List Char) (len i r : Nat) : Decidable (IsRadius proc len i r) := by
  unfold IsRadius; infer_instance
instance (proc : List Char) (len i r : Nat) : Decidable (IsMaxRadius proc len i r) := by
  unfold IsMaxRadius; infer_instance

/-- State of the sweep after the first `m` iterations of the `for` loop. -/
def sweepUpTo (proc : List Char) (len m : Nat) : Sweep :=
  (List.range m).foldl (sweepStep proc len) ⟨List.replicate len 0, 0, 0, 0⟩

/-- Value stored in `result[i]` by the first statement of the `for` body. -/
def seedValue (st : Sweep) (i : Nat) : Nat :=
  if st.currR > i then min (st.currR - i) (st.result.getD (2 * st.currC - i) 0) else 0

/-- Invariant of the `for` loop of `all_centered_palindromes` before iteration `m`. -/
structure SweepInv (proc : List Char) (len m : Nat) (st : Sweep) : Prop where
  length_eq : st.result.length = len
  maxRad : ∀ j, j < m → IsMaxRadius proc len j (st.result.getD j 0)
  reach : ∀ j, j < m → j + st.result.getD j 0 ≤ st.currR
  edge : st.currR = st.currC + st.result.getD st.currC 0
  center : st.currC < m ∨ (st.currC = 0 ∧ st.currR = 0)
  first : ∀ j, j < m → j + st.result.getD j 0 = st.currR → st.currC ≤ j
  ticks_le : st.ticks ≤ st.currR

/-- The substring `s[a .. a+m)` reads the same forward and backward:
`s[a+d] = s[a+m-1-d]` for every `d < m`. -/
def IsPalindrome (s : List Char) (a m : Nat) : Prop :=
  ∀ d, d < m → s[a + d]? = s[a + m - 1 - d]?

instance (s : List Char) (a m : Nat) : Decidable (IsPalindrome s a m) := by
  unfold IsPalindrome; infer_instance

/-- Table `temp` after the iterations `i = 1 .. m` of the first loop of
`find_longest_palindrome`. -/
def collectUpTo (all : List Nat) (n m : Nat) : List Nat :=
  (List.range' 1 m).foldl (collectStep all) (List.replicate n 0)

/-- Result record after the iterations `j = 0 .. m-1` of the second loop of
`find_longest_palindrome`. -/
def pickUpTo (temp : List Nat) (m : Nat) : output :=
  (List.range m).foldl (pickStep temp) ⟨0, 1⟩

/-- Naive expansion at centre `i`, written from the description of the radius
table: starting from radius `r`, grow the radius while both probe positions lie
inside the block and hold equal symbols. -/
def naiveExpand (t : List Char) (i : Nat) : Nat → Nat → Nat
  | 0, r => r
  | fuel + 1, r =>
    if r + 1 ≤ i ∧ i + (r + 1) < t.length ∧ t[i - (r + 1)]? = t[i + (r + 1)]? then
      naiveExpand t i fuel (r + 1)
    else r

/-- Radius table obtained by naive expansion from radius `0` at every centre of
the interleaved block. -/
def naive_table (s : List Char) (n : Nat) : List Nat :=
  (List.range (2 * n + 1)).map fun i => naiveExpand (extend s n) i (2 * n + 1) 0

/-- The pair `o` denotes the earliest among the longest palindromic substrings
of `s`. -/
def IsEarliestLongest (s : List Char) (o : output) : Prop :=
  (o.start + o.length ≤ s.length ∧ IsPalindrome s o.start o.length) ∧
  (∀ a m, a + m ≤ s.length → IsPalindrome s a m → m ≤ o.length) ∧
  (∀ a, a + o.length ≤ s.length → IsPalindrome s a o.length → o.start ≤ a)

/-- State of the sweep of `all_centered_palindromes(s, n)` on entry to iteration
`m` of its `for` loop, that is, after the indices below `m` have been processed. -/
def sweepBefore (s : List Char) (n m : Nat) : Sweep :=
  sweepUpTo (extend s n) (2 * n + 1) m

/-- State inside iteration `m` of the sweep of `all_centered_palindromes(s, n)`
after the seed has been stored and the body of the `while` loop has run `k`
times (or fewer, when the loop has stopped earlier). -/
def loopState (s : List Char) (n m k : Nat) : Sweep :=
  extendLoop (extend s n) (2 * n + 1) m k (seedStep (sweepBefore s n m) m)

/-! ## Lemmas -/

theorem getD_set {α : Type} (l : List α) (i j : Nat) (v d : α) :
    (l.set i v).getD j d = if i = j ∧ i < l.length then v else l.getD j d := by
  rw [List.getD_eq_getElem?_getD, List.getD_eq_getElem?_getD, List.getElem?_set]
  by_cases hij : i = j
  · subst hij
    by_cases hl : i < l.length
    · rw [if_pos rfl, if_pos hl, if_pos ⟨rfl, hl⟩]; rfl
    · rw [if_pos rfl, if_neg hl, if_neg (fun h => hl h.2), List.getElem?_eq_none (by omega)]
  · rw [if_neg hij, if_neg (fun h => hij h.1)]

theorem getD_eq_getElem? {α : Type} (l : List α) (i : Nat) (d : α) (h : i < l.length) :
    l[i]? = some (l.getD i d) := by
  simp [List.getD_eq_getElem?_getD, List.getElem?_eq_getElem h]

theorem extendStep_length (s res : List Char) (i : Nat) :
    (extendStep s res i).length = res.length := by
  simp [extendStep]

theorem extendFold_length (s : List Char) (k : Nat) (res : List Char) :
    ((List.range k).foldl (extendStep s) res).length = res.length := by
  induction k with
  | zero => simp
  | succ k ih => simp [List.range_succ, List.foldl_append, extendStep_length, ih]

theorem extendFold_getD (s : List Char) (k : Nat) (res : List Char) (j : Nat) (d : Char)
    (hk : 2 * k ≤ res.length) :
    ((List.range k).foldl (extendStep s) res).getD j d =
      if j < 2 * k then (if j % 2 = 0 then '#' else s.getD (j / 2) '#') else res.getD j d := by
  induction k with
  | zero => simp
  | succ k ih =>
    have ih := ih (by omega)
    have hlen := extendFold_length s k res
    simp only [List.range_succ, List.foldl_append, List.foldl_cons, List.foldl_nil]
    rw [extendStep, getD_set, getD_set, ih, List.length_set, hlen]
    by_cases h1 : 2 * k + 1 = j
    · subst h1
      have e : (2 * k + 1) / 2 = k := by omega
      have e2 : (2 * k + 1) % 2 = 1 := by omega
      rw [if_pos ⟨rfl, by omega⟩, if_pos (by omega), e, e2]
      rfl
    · rw [if_neg (fun h => h1 h.1)]
      by_cases h2 : 2 * k = j
      · subst h2
        rw [if_pos ⟨rfl, by omega⟩, if_pos (by omega), if_pos (by omega)]
      · rw [if_neg (fun h => h2 h.1)]
        by_cases h3 : j < 2 * k
        · have e : j < 2 * (k + 1) := by omega
          simp only [h3, e, if_true]
        · have e : ¬ j < 2 * (k + 1) := by omega
          simp only [h3, e, if_false]

theorem extend_length (s : List Char) (n : Nat) : (extend s n).length = 2 * n + 1 := by
  simp [extend, extendFold_length]

theorem extend_getD (s : List Char) (n j : Nat) (d : Char) (hj : j < 2 * n + 1) :
    (extend s n).getD j d = if j % 2 = 0 then '#' else s.getD (j / 2) '#' := by
  unfold extend
  rw [getD_set, extendFold_length, extendFold_getD _ _ _ _ _ (by simp)]
  by_cases h : 2 * n = j
  · subst h; simp
  · have : j < 2 * n := by omega
    simp [h, this]

theorem valid_iff (len cen rad : Nat) : valid len cen rad = true ↔ Fits len cen rad := by
  simp only [valid, Fits, Bool.and_eq_true, decide_eq_true_eq]
  omega

theorem IsRadius.mono {proc : List Char} {len i r r' : Nat} (h : IsRadius proc len i r)
    (hr : r' ≤ r) : IsRadius proc len i r' :=
  ⟨⟨by have := h.1.1; omega, by have := h.1.2; omega⟩, fun d hd => h.2 d (by omega)⟩

theorem IsRadius.le_max {proc : List Char} {len i r m : Nat} (h : IsRadius proc len i r)
    (hm : IsMaxRadius proc len i m) : r ≤ m := by
  by_contra hlt
  exact hm.2 (h.mono (by omega))

theorem IsMaxRadius.unique {proc : List Char} {len i r m : Nat} (hr : IsMaxRadius proc len i r)
    (hm : IsMaxRadius proc len i m) : r = m :=
  Nat.le_antisymm (hr.1.le_max hm) (hm.1.le_max hr)

theorem isRadius_zero {proc : List Char} {len i : Nat} (hi : i < len) : IsRadius proc len i 0 :=
  ⟨⟨Nat.zero_le _, by omega⟩, fun d hd => by
    have : d = 0 := by omega
    subst this; rfl⟩

theorem isRadius_succ_iff {proc : List Char} {len i r : Nat} (h : IsRadius proc len i r) :
    IsRadius proc len i (r + 1) ↔
      Fits len i (r + 1) ∧ proc.getD (i + 1 + r) '#' = proc.getD (i - 1 - r) '#' := by
  constructor
  · intro h1
    refine ⟨h1.1, ?_⟩
    have := h1.2 (r + 1) (Nat.le_refl _)
    rw [show i + 1 + r = i + (r + 1) by omega, show i - 1 - r = i - (r + 1) by omega]
    exact this
  · rintro ⟨hf, he⟩
    refine ⟨hf, fun d hd => ?_⟩
    by_cases hd' : d ≤ r
    · exact h.2 d hd'
    · have : d = r + 1 := by omega
      subst this
      rw [show i + (r + 1) = i + 1 + r by omega, show i - (r + 1) = i - 1 - r by omega]
      exact he

/-- Mirror law inside a palindrome centred at `c` with radius `R`. -/
theorem PalAt.mirror {proc : List Char} {c R : Nat} (h : PalAt proc c R) (x : Nat)
    (h1 : c ≤ x + R) (h2 : x ≤ c + R) (hR : R ≤ c) :
    proc.getD x '#' = proc.getD (2 * c - x) '#' := by
  by_cases hx : c ≤ x
  · have := h (x - c) (by omega)
    rw [show c + (x - c) = x by omega, show c - (x - c) = 2 * c - x by omega] at this
    exact this
  · have := h (c - x) (by omega)
    rw [show c + (c - x) = 2 * c - x by omega, show c - (c - x) = x by omega] at this
    exact this.symm

theorem extendCond_iff {proc : List Char} {len i : Nat} {st : Sweep}
    (h : IsRadius proc len i (st.result.getD i 0)) :
    extendCond proc len i st = true ↔ IsRadius proc len i (st.result.getD i 0 + 1) := by
  rw [isRadius_succ_iff h, extendCond, Bool.and_eq_true, valid_iff, beq_iff_eq,
    Nat.add_comm 1 (st.result.getD i 0)]

/-- The `while` loop: started on a palindromic radius it stops, before the fuel
is used up, on the largest radius; it changes only `result[i]` and `ticks`, and
`ticks` grows by exactly the number of increments. -/
theorem extendLoop_spec (proc : List Char) (len i : Nat) :
    ∀ (fuel : Nat) (st : Sweep), i < st.result.length →
      IsRadius proc len i (st.result.getD i 0) → i - st.result.getD i 0 < fuel →
      ∃ r, st.result.getD i 0 ≤ r ∧ IsMaxRadius proc len i r ∧
        extendLoop proc len i fuel st =
          { st with result := st.result.set i r, ticks := st.ticks + (r - st.result.getD i 0) } := by
  intro fuel
  induction fuel with
  | zero => intro st _ _ h; omega
  | succ fuel ih =>
    intro st hi hr hf
    obtain ⟨res, c, R, tk⟩ := st
    simp only at hi hr hf ⊢
    by_cases hc : extendCond proc len i ⟨res, c, R, tk⟩ = true
    · have hr1 := (extendCond_iff hr).1 hc
      simp only at hr1
      have hget : (res.set i (res.getD i 0 + 1)).getD i 0 = res.getD i 0 + 1 := by
        rw [getD_set, if_pos ⟨rfl, hi⟩]
      obtain ⟨r, h1, h2, h3⟩ := ih ⟨res.set i (res.getD i 0 + 1), c, R, tk + 1⟩
        (by rw [List.length_set]; exact hi) (by rw [hget]; exact hr1)
        (by
          have := hr1.1.1
          rw [hget]; omega)
      simp only [hget] at h1 h3
      refine ⟨r, by omega, h2, ?_⟩
      rw [extendLoop, if_pos hc, h3, List.set_set]
      congr 1
      omega
    · refine ⟨res.getD i 0, Nat.le_refl _, ⟨hr, fun h => hc ((extendCond_iff hr).2 h)⟩, ?_⟩
      rw [extendLoop, if_neg hc]
      have : res.set i (res.getD i 0) = res := by
        apply List.ext_getElem?
        intro j
        rw [List.getElem?_set]
        by_cases hij : i = j
        · subst hij
          rw [if_pos rfl, if_pos hi, getD_eq_getElem? _ _ 0 hi]
        · rw [if_neg hij]
      rw [this, Nat.sub_self, Nat.add_zero]

theorem min_le_left (a b : Nat) : min a b ≤ a := by
  unfold min; split <;> omega

theorem min_le_right (a b : Nat) : min a b ≤ b := by
  unfold min; split <;> omega

theorem min_eq_right_of_lt (a b : Nat) (h : min a b < a) : min a b = b := by
  unfold min at h ⊢; split at h <;> simp_all

theorem seedStep_eq (st : Sweep) (i : Nat) :
    seedStep st i = { st with result := st.result.set i (seedValue st i) } := by
  unfold seedStep seedValue
  by_cases h : st.currR > i
  · simp only [if_pos h]
  · simp only [if_neg h]

/-- In the seeded branch the centre lies strictly left of `m`, the mirror index
is a real index left of `m`, and the recorded palindrome at the centre is known. -/
theorem SweepInv.mirror_facts {proc : List Char} {len m : Nat} {st : Sweep}
    (inv : SweepInv proc len m st) (h : st.currR > m) :
    st.currC < m ∧ m ≤ 2 * st.currC ∧ 2 * st.currC - m < m ∧
      st.result.getD st.currC 0 ≤ st.currC := by
  have hc : st.currC < m := by
    rcases inv.center with h1 | ⟨_, h2⟩
    · exact h1
    · omega
  have hC := (inv.maxRad _ hc).1.1
  have he := inv.edge
  unfold Fits at hC
  omega

theorem SweepInv.seed_isRadius {proc : List Char} {len m : Nat} {st : Sweep}
    (inv : SweepInv proc len m st) (hm : m < len) :
    IsRadius proc len m (seedValue st m) := by
  unfold seedValue
  by_cases h : st.currR > m
  · rw [if_pos h]
    obtain ⟨hc, h2c, hsym, hRC⟩ := inv.mirror_facts h
    have hC := (inv.maxRad _ hc).1
    have hS := (inv.maxRad _ hsym).1
    have he := inv.edge
    have hl := min_le_left (st.currR - m) (st.result.getD (2 * st.currC - m) 0)
    have hr := min_le_right (st.currR - m) (st.result.getD (2 * st.currC - m) 0)
    have hCf := hC.1
    have hSf := hS.1
    unfold Fits at hCf hSf
    refine ⟨⟨by omega, by omega⟩, fun d hd => ?_⟩
    have e1 := hC.2.mirror (m + d) (by omega) (by omega) hRC
    have e2 := hC.2.mirror (m - d) (by omega) (by omega) hRC
    have e3 := hS.2 d (by omega)
    rw [show 2 * st.currC - (m + d) = 2 * st.currC - m - d by omega] at e1
    rw [show 2 * st.currC - (m - d) = 2 * st.currC - m + d by omega] at e2
    rw [e1, e2, e3]
  · rw [if_neg h]
    exact isRadius_zero hm

/-- A seed that stays strictly inside the known right edge is already maximal. -/
theorem SweepInv.seed_tight {proc : List Char} {len m : Nat} {st : Sweep}
    (inv : SweepInv proc len m st) (hm : m < len) (hlt : m + seedValue st m < st.currR) :
    IsMaxRadius proc len m (seedValue st m) := by
  refine ⟨inv.seed_isRadius hm, fun hsucc => ?_⟩
  have h : st.currR > m := by omega
  obtain ⟨hc, h2c, hsym, hRC⟩ := inv.mirror_facts h
  have hC := (inv.maxRad _ hc).1
  have hS := inv.maxRad _ hsym
  have he := inv.edge
  have hCf := hC.1
  have hSf := hS.1.1
  have hsf := hsucc.1
  unfold Fits at hCf hSf hsf
  have hv : seedValue st m = st.result.getD (2 * st.currC - m) 0 := by
    unfold seedValue at hlt ⊢
    rw [if_pos h] at hlt ⊢
    exact min_eq_right_of_lt _ _ (by omega)
  rw [hv] at hsucc hlt hsf
  apply hS.2
  refine (isRadius_succ_iff hS.1).2 ⟨⟨by omega, by omega⟩, ?_⟩
  have e0 := hsucc.2 (st.result.getD (2 * st.currC - m) 0 + 1) (Nat.le_refl _)
  have e1 := hC.2.mirror (m + (st.result.getD (2 * st.currC - m) 0 + 1)) (by omega) (by omega) hRC
  have e2 := hC.2.mirror (m - (st.result.getD (2 * st.currC - m) 0 + 1)) (by omega) (by omega) hRC
  rw [show 2 * st.currC - (m + (st.result.getD (2 * st.currC - m) 0 + 1)) =
    2 * st.currC - m - 1 - st.result.getD (2 * st.currC - m) 0 by omega] at e1
  rw [show 2 * st.currC - (m - (st.result.getD (2 * st.currC - m) 0 + 1)) =
    2 * st.currC - m + 1 + st.result.getD (2 * st.currC - m) 0 by omega] at e2
  rw [← e1, ← e2, e0]

/-- Shape of one iteration of the `for` loop under the invariant. -/
theorem SweepInv.step_shape {proc : List Char} {len m : Nat} {st : Sweep}
    (inv : SweepInv proc len m st) (hm : m < len) :
    ∃ r, seedValue st m ≤ r ∧ IsMaxRadius proc len m r ∧
      (seedValue st m < r → st.currR ≤ m + seedValue st m) ∧
      sweepStep proc len st m =
        edgeStep { st with result := st.result.set m r,
                           ticks := st.ticks + (r - seedValue st m) } m := by
  have hlen := inv.length_eq
  have hget : (st.result.set m (seedValue st m)).getD m 0 = seedValue st m := by
    rw [getD_set, if_pos ⟨rfl, by omega⟩]
  have hseed := inv.seed_isRadius hm
  obtain ⟨r, h1, h2, h3⟩ := extendLoop_spec proc len m len
    { st with result := st.result.set m (seedValue st m) }
    (by rw [List.length_set]; omega) (by rw [hget]; exact hseed) (by omega)
  simp only [hget, List.set_set] at h1 h3
  refine ⟨r, h1, h2, ?_, ?_⟩
  · intro hlt
    by_contra hcon
    have := (inv.seed_tight hm (by omega)).unique h2
    omega
  · rw [sweepStep, seedStep_eq, h3]

/-- The `while` loop of iteration `m` is left because its condition fails, not
because the fuel of the model ran out. -/
theorem SweepInv.extendLoop_exit {proc : List Char} {len m : Nat} {st : Sweep}
    (inv : SweepInv proc len m st) (hm : m < len) :
    extendCond proc len m (extendLoop proc len m len (seedStep st m)) = false := by
  have hlen := inv.length_eq
  have hget : (st.result.set m (seedValue st m)).getD m 0 = seedValue st m := by
    rw [getD_set, if_pos ⟨rfl, by omega⟩]
  obtain ⟨r, -, h2, h3⟩ := extendLoop_spec proc len m len
    { st with result := st.result.set m (seedValue st m) }
    (by rw [List.length_set]; omega) (by rw [hget]; exact inv.seed_isRadius hm) (by omega)
  simp only [hget, List.set_set] at h3
  rw [seedStep_eq, h3]
  have hg : (st.result.set m r).getD m 0 = r := by
    rw [getD_set, if_pos ⟨rfl, by omega⟩]
  cases hc : extendCond proc len m
      { st with result := st.result.set m r, ticks := st.ticks + (r - seedValue st m) } with
  | false => rfl
  | true =>
    have := (extendCond_iff (by simp only [hg]; exact h2.1)).1 hc
    simp only [hg] at this
    exact absurd this h2.2

theorem SweepInv.step {proc : List Char} {len m : Nat} {st : Sweep}
    (inv : SweepInv proc len m st) (hm : m < len) :
    SweepInv proc len (m + 1) (sweepStep proc len st m) ∧
      st.currR ≤ (sweepStep proc len st m).currR := by
  obtain ⟨r, h1, h2, h3, h4⟩ := inv.step_shape hm
  have hlen := inv.length_eq
  have hgm : (st.result.set m r).getD m 0 = r := by
    rw [getD_set, if_pos ⟨rfl, by omega⟩]
  have hgj : ∀ j, j ≠ m → (st.result.set m r).getD j 0 = st.result.getD j 0 := by
    intro j hj
    rw [getD_set, if_neg (fun h => hj h.1.symm)]
  have he := inv.edge
  have htk := inv.ticks_le
  rw [h4]
  unfold edgeStep
  simp only [hgm]
  by_cases hup : m + r > st.currR
  · rw [if_pos hup]
    refine ⟨⟨by simp [hlen], ?_, ?_, ?_, ?_, ?_, ?_⟩, by simp only; omega⟩
    · intro j hj
      by_cases hjm : j = m
      · subst hjm; simp only [hgm]; exact h2
      · simp only [hgj j hjm]; exact inv.maxRad j (by omega)
    · intro j hj
      by_cases hjm : j = m
      · subst hjm; simp only [hgm]; omega
      · simp only [hgj j hjm]
        have := inv.reach j (by omega)
        omega
    · simp only [hgm]
    · left; simp only; omega
    · intro j hj
      by_cases hjm : j = m
      · subst hjm; intro _; exact Nat.le_refl _
      · simp only [hgj j hjm]
        have := inv.reach j (by omega)
        intro; omega
    · simp only; omega
  · rw [if_neg hup]
    have hr : r = seedValue st m := by
      by_contra hne
      have := h3 (by omega)
      omega
    refine ⟨⟨by simp [hlen], ?_, ?_, ?_, ?_, ?_, ?_⟩, by simp only; omega⟩
    · intro j hj
      by_cases hjm : j = m
      · subst hjm; simp only [hgm]; exact h2
      · simp only [hgj j hjm]; exact inv.maxRad j (by omega)
    · intro j hj
      by_cases hjm : j = m
      · subst hjm; simp only [hgm]; omega
      · simp only [hgj j hjm]
        exact inv.reach j (by omega)
    · simp only
      rcases inv.center with hc | ⟨hc0, hR0⟩
      · rw [hgj _ (by omega)]; exact he
      · by_cases hm0 : m = 0
        · subst hm0
          rw [hc0, hgm]; omega
        · rw [hgj _ (by omega)]; exact he
    · simp only
      rcases inv.center with hc | ⟨hc0, hR0⟩
      · left; omega
      · left; omega
    · intro j hj
      simp only
      by_cases hjm : j = m
      · subst hjm
        intro _
        rcases inv.center with hc | ⟨hc0, hR0⟩ <;> omega
      · rw [hgj j hjm]
        exact inv.first j (by omega)
    · simp only; omega

theorem sweepInv_init (proc : List Char) (len : Nat) :
    SweepInv proc len 0 ⟨List.replicate len 0, 0, 0, 0⟩ := by
  refine ⟨by simp, fun j hj => by omega, fun j hj => by omega, ?_, Or.inr ⟨rfl, rfl⟩,
    fun j hj => by omega, Nat.le_refl _⟩
  simp only [List.getD_eq_getElem?_getD, List.getElem?_replicate]
  split <;> rfl

theorem sweepUpTo_succ (proc : List Char) (len m : Nat) :
    sweepUpTo proc len (m + 1) = sweepStep proc len (sweepUpTo proc len m) m := by
  simp [sweepUpTo, List.range_succ, List.foldl_append]

theorem sweepUpTo_inv (proc : List Char) (len : Nat) :
    ∀ m, m ≤ len → SweepInv proc len m (sweepUpTo proc len m) := by
  intro m
  induction m with
  | zero => intro _; exact sweepInv_init proc len
  | succ m ih =>
    intro hm
    rw [sweepUpTo_succ]
    exact ((ih (by omega)).step (by omega)).1

theorem sweep_inv (proc : List Char) (len : Nat) : SweepInv proc len len (sweep proc len) :=
  sweepUpTo_inv proc len len (Nat.le_refl _)

/-- The table built by the sweep holds, at every index, the largest palindromic
radius of the block at that index. -/
theorem sweep_maxRadius (proc : List Char) (len i : Nat) (hi : i < len) :
    IsMaxRadius proc len i ((sweep proc len).result.getD i 0) :=
  (sweep_inv proc len).maxRad i hi

theorem sweep_currR_lt (proc : List Char) (len : Nat) (hlen : 0 < len) :
    (sweep proc len).currR < len := by
  have inv := sweep_inv proc len
  rcases inv.center with hc | ⟨_, hR⟩
  · have := (inv.maxRad _ hc).1.1.2
    have := inv.edge
    omega
  · omega

theorem extend_getD_even (s : List Char) (n k : Nat) (hk : k ≤ 2 * n) (he : k % 2 = 0) :
    (extend s n).getD k '#' = '#' := by
  rw [extend_getD _ _ _ _ (by omega), if_pos he]

theorem extend_getD_odd (s : List Char) (n k : Nat) (hk : k < 2 * n) (ho : k % 2 = 1) :
    (extend s n).getD k '#' = s.getD (k / 2) '#' := by
  rw [extend_getD _ _ _ _ (by omega), if_neg (by omega)]

/-- A maximal radius of the interleaved block always ends on separators. -/
theorem extend_maxRadius_parity (s : List Char) (n i r : Nat)
    (h : IsMaxRadius (extend s n) (2 * n + 1) i r) : (i + r) % 2 = 0 := by
  by_contra hodd
  have hf := h.1.1
  unfold Fits at hf
  apply h.2
  refine (isRadius_succ_iff h.1).2 ⟨⟨by omega, by omega⟩, ?_⟩
  rw [extend_getD_even _ _ _ (by omega) (by omega), extend_getD_even _ _ _ (by omega) (by omega)]

/-- Palindromic substrings of `s` are exactly the palindromic radii of the
interleaved block: `s[a .. a+m)` corresponds to centre `2*a+m` and radius `m`. -/
theorem isPalindrome_iff_isRadius (s : List Char) (n a m : Nat) (hs : s.length = n)
    (ham : a + m ≤ n) :
    IsPalindrome s a m ↔ IsRadius (extend s n) (2 * n + 1) (2 * a + m) m := by
  constructor
  · intro hp
    refine ⟨⟨by omega, by omega⟩, fun d hd => ?_⟩
    by_cases he : (2 * a + m + d) % 2 = 0
    · rw [extend_getD_even _ _ _ (by omega) he, extend_getD_even _ _ _ (by omega) (by omega)]
    · rw [extend_getD_odd _ _ _ (by omega) (by omega), extend_getD_odd _ _ _ (by omega) (by omega)]
      have := hp ((2 * a + m - d) / 2 - a) (by omega)
      rw [show a + ((2 * a + m - d) / 2 - a) = (2 * a + m - d) / 2 by omega,
        show a + m - 1 - ((2 * a + m - d) / 2 - a) = (2 * a + m + d) / 2 by omega] at this
      rw [List.getD_eq_getElem?_getD, List.getD_eq_getElem?_getD, this]
  · intro hr d hd
    rw [getD_eq_getElem? s (a + d) '#' (by omega), getD_eq_getElem? s (a + m - 1 - d) '#' (by omega)]
    congr 1
    by_cases hc : 2 * d + 1 ≤ m
    · have := hr.2 (m - 2 * d - 1) (by omega)
      rw [extend_getD_odd _ _ _ (by omega) (by omega), extend_getD_odd _ _ _ (by omega) (by omega),
        show (2 * a + m + (m - 2 * d - 1)) / 2 = a + m - 1 - d by omega,
        show (2 * a + m - (m - 2 * d - 1)) / 2 = a + d by omega] at this
      exact this.symm
    · have := hr.2 (2 * d + 1 - m) (by omega)
      rw [extend_getD_odd _ _ _ (by omega) (by omega), extend_getD_odd _ _ _ (by omega) (by omega),
        show (2 * a + m + (2 * d + 1 - m)) / 2 = a + d by omega,
        show (2 * a + m - (2 * d + 1 - m)) / 2 = a + m - 1 - d by omega] at this
      exact this

theorem table_length (s : List Char) (n : Nat) :
    (all_centered_palindromes s n).length = 2 * n + 1 :=
  (sweep_inv (extend s n) (2 * n + 1)).length_eq

theorem table_maxRadius (s : List Char) (n i : Nat) (hi : i < 2 * n + 1) :
    IsMaxRadius (extend s n) (2 * n + 1) i ((all_centered_palindromes s n).getD i 0) :=
  sweep_maxRadius (extend s n) (2 * n + 1) i hi

/-- Every table entry denotes a palindromic substring of the input that lies
inside the input. -/
theorem table_entry_palindrome (s : List Char) (n c : Nat) (hs : s.length = n)
    (hc : c < 2 * n + 1) :
    let r := (all_centered_palindromes s n).getD c 0
    (c + r) % 2 = 0 ∧ r ≤ c ∧ c + r ≤ 2 * n ∧ IsPalindrome s ((c - r) / 2) r := by
  intro r
  have hmax := table_maxRadius s n c hc
  have hpar := extend_maxRadius_parity s n c _ hmax
  have hf := hmax.1.1
  unfold Fits at hf
  refine ⟨hpar, hf.1, by omega, ?_⟩
  rw [isPalindrome_iff_isRadius s n _ _ hs (by omega)]
  have e : 2 * ((c - r) / 2) + r = c := by omega
  rw [e]
  exact hmax.1

/-- Every palindromic substring of the input is covered by the table entry of
its centre. -/
theorem palindrome_le_table (s : List Char) (n a m : Nat) (hs : s.length = n)
    (ham : a + m ≤ n) (hp : IsPalindrome s a m) :
    m ≤ (all_centered_palindromes s n).getD (2 * a + m) 0 :=
  ((isPalindrome_iff_isRadius s n a m hs ham).1 hp).le_max (table_maxRadius s n _ (by omega))

theorem max_ge_left (a b : Nat) : a ≤ max a b := by
  unfold max; split <;> omega

theorem max_ge_right (a b : Nat) : b ≤ max a b := by
  unfold max; split <;> omega

theorem max_cases (a b : Nat) : max a b = a ∨ max a b = b := by
  unfold max; split
  · exact Or.inl rfl
  · exact Or.inr rfl

theorem record_length (temp : List Nat) (a v : Nat) : (record temp a v).length = temp.length := by
  simp [record]

theorem record_getD (temp : List Nat) (a v j : Nat) :
    (record temp a v).getD j 0 =
      if a = j ∧ a < temp.length then max (temp.getD a 0) v else temp.getD j 0 := by
  rw [record, getD_set]

theorem record_mono (temp : List Nat) (a v j : Nat) :
    temp.getD j 0 ≤ (record temp a v).getD j 0 := by
  rw [record_getD]
  split
  · rename_i h
    rw [← h.1]; exact max_ge_left _ _
  · exact Nat.le_refl _

theorem record_ge (temp : List Nat) (a v : Nat) (ha : a < temp.length) :
    v ≤ (record temp a v).getD a 0 := by
  rw [record_getD, if_pos ⟨rfl, ha⟩]
  exact max_ge_right _ _

theorem record_cases (temp : List Nat) (a v j : Nat) :
    (record temp a v).getD j 0 = temp.getD j 0 ∨ (a = j ∧ (record temp a v).getD j 0 = v) := by
  rw [record_getD]
  split
  · rename_i h
    rcases max_cases (temp.getD a 0) v with e | e
    · left; rw [e, h.1]
    · right; exact ⟨h.1, e⟩
  · left; rfl

theorem collectStep_length (all temp : List Nat) (i : Nat) :
    (collectStep all temp i).length = temp.length := by
  simp [collectStep, record_length]

theorem collectStep_mono (all temp : List Nat) (i j : Nat) :
    temp.getD j 0 ≤ (collectStep all temp i).getD j 0 :=
  Nat.le_trans (record_mono _ _ _ _) (record_mono _ _ _ _)

theorem collectUpTo_succ (all : List Nat) (n m : Nat) :
    collectUpTo all n (m + 1) = collectStep all (collectUpTo all n m) (m + 1) := by
  simp [collectUpTo, List.range'_1_concat, List.foldl_append, Nat.add_comm]

theorem collectUpTo_length (all : List Nat) (n m : Nat) : (collectUpTo all n m).length = n := by
  induction m with
  | zero => simp [collectUpTo]
  | succ m ih => rw [collectUpTo_succ, collectStep_length, ih]

/-- Every candidate recorded up to iteration `m` at a start inside the table
is dominated by the entry of its start. -/
theorem collectUpTo_ge (all : List Nat) (n : Nat) :
    ∀ m i, 1 ≤ i → i ≤ m →
      (oddStart all i < n → oddLength all i ≤ (collectUpTo all n m).getD (oddStart all i) 0) ∧
      (evenStart all i < n → evenLength all i ≤ (collectUpTo all n m).getD (evenStart all i) 0) := by
  intro m
  induction m with
  | zero => intro i h1 h2; omega
  | succ m ih =>
    intro i h1 h2
    rw [collectUpTo_succ]
    by_cases him : i ≤ m
    · obtain ⟨ho, hev⟩ := ih i h1 him
      exact ⟨fun h => Nat.le_trans (ho h) (collectStep_mono _ _ _ _),
        fun h => Nat.le_trans (hev h) (collectStep_mono _ _ _ _)⟩
    · have : i = m + 1 := by omega
      subst this
      have hl := collectUpTo_length all n m
      constructor
      · intro h
        unfold collectStep
        exact Nat.le_trans (record_ge _ _ _ (by omega)) (record_mono _ _ _ _)
      · intro h
        unfold collectStep
        exact record_ge _ _ _ (by rw [record_length]; omega)

/-- Every entry of `temp` is zero or the length of a recorded candidate that
starts there. -/
theorem collectUpTo_origin (all : List Nat) (n : Nat) :
    ∀ m j, (collectUpTo all n m).getD j 0 = 0 ∨
      ∃ i, 1 ≤ i ∧ i ≤ m ∧
        ((oddStart all i = j ∧ oddLength all i = (collectUpTo all n m).getD j 0) ∨
         (evenStart all i = j ∧ evenLength all i = (collectUpTo all n m).getD j 0)) := by
  intro m
  induction m with
  | zero =>
    intro j
    left
    simp only [collectUpTo, List.range'_zero, List.foldl_nil, List.getD_eq_getElem?_getD,
      List.getElem?_replicate]
    split <;> rfl
  | succ m ih =>
    intro j
    rw [collectUpTo_succ]
    unfold collectStep
    rcases record_cases (record (collectUpTo all n m) (oddStart all (m + 1)) (oddLength all (m + 1)))
      (evenStart all (m + 1)) (evenLength all (m + 1)) j with e | ⟨e1, e2⟩
    · rcases record_cases (collectUpTo all n m) (oddStart all (m + 1)) (oddLength all (m + 1)) j
        with e' | ⟨e1, e2⟩
      · rw [e, e']
        rcases ih j with h | ⟨i, h1, h2, h3⟩
        · exact Or.inl h
        · exact Or.inr ⟨i, h1, by omega, h3⟩
      · right
        exact ⟨m + 1, by omega, Nat.le_refl _, Or.inl ⟨e1, by rw [e, e2]⟩⟩
    · right
      exact ⟨m + 1, by omega, Nat.le_refl _, Or.inr ⟨e1, e2.symm⟩⟩

theorem pickUpTo_succ (temp : List Nat) (m : Nat) :
    pickUpTo temp (m + 1) = pickStep temp (pickUpTo temp m) m := by
  simp [pickUpTo, List.range_succ, List.foldl_append]

/-- Invariant of the second loop: the running result is the default `(0, 1)`
or the first entry of `temp` that holds the largest value seen so far. -/
theorem pickUpTo_inv (temp : List Nat) :
    ∀ m, 1 ≤ (pickUpTo temp m).length ∧
      (∀ j, j < m → temp.getD j 0 ≤ (pickUpTo temp m).length) ∧
      (pickUpTo temp m = ⟨0, 1⟩ ∨
        ((pickUpTo temp m).start < m ∧
          temp.getD (pickUpTo temp m).start 0 = (pickUpTo temp m).length ∧
          1 < (pickUpTo temp m).length ∧
          ∀ j, j < (pickUpTo temp m).start → temp.getD j 0 < (pickUpTo temp m).length)) := by
  intro m
  induction m with
  | zero => exact ⟨Nat.le_refl _, fun j hj => by omega, Or.inl rfl⟩
  | succ m ih =>
    obtain ⟨h1, h2, h3⟩ := ih
    rw [pickUpTo_succ]
    unfold pickStep
    by_cases hgt : temp.getD m 0 > (pickUpTo temp m).length
    · rw [if_pos hgt]
      refine ⟨by simp only; omega, ?_, Or.inr ⟨by simp only; omega, rfl, by simp only; omega, ?_⟩⟩
      · intro j hj
        simp only
        by_cases hjm : j = m
        · subst hjm; exact Nat.le_refl _
        · have := h2 j (by omega); omega
      · intro j hj
        simp only at hj ⊢
        have := h2 j hj; omega
    · rw [if_neg hgt]
      refine ⟨h1, ?_, ?_⟩
      · intro j hj
        by_cases hjm : j = m
        · subst hjm; omega
        · exact h2 j (by omega)
      · rcases h3 with h | ⟨ha, hb, hc, hd⟩
        · exact Or.inl h
        · exact Or.inr ⟨by omega, hb, hc, hd⟩

theorem collect_eq (all : List Nat) (n : Nat) : collect all n = collectUpTo all n n := rfl

theorem find_eq (s : List Char) (n : Nat) :
    find_longest_palindrome s n = pickUpTo (collect (all_centered_palindromes s n) n) n := rfl

/-- Both candidates of iteration `i` are palindromic substrings inside the input. -/
theorem candidates_sound (s : List Char) (n i : Nat) (hs : s.length = n) (h1 : 1 ≤ i)
    (h2 : i ≤ n) :
    (oddStart (all_centered_palindromes s n) i + oddLength (all_centered_palindromes s n) i ≤ n ∧
      IsPalindrome s (oddStart (all_centered_palindromes s n) i)
        (oddLength (all_centered_palindromes s n) i)) ∧
    (evenStart (all_centered_palindromes s n) i + evenLength (all_centered_palindromes s n) i ≤ n ∧
      IsPalindrome s (evenStart (all_centered_palindromes s n) i)
        (evenLength (all_centered_palindromes s n) i)) := by
  constructor
  · obtain ⟨hp, hr, hb, hpal⟩ := table_entry_palindrome s n (2 * i - 1) hs (by omega)
    unfold oddStart oddLength
    generalize (all_centered_palindromes s n).getD (2 * i - 1) 0 = r at *
    have e1 : i - 1 - r / 2 = (2 * i - 1 - r) / 2 := by omega
    have e2 : r + 1 - r % 2 = r := by omega
    rw [e1, e2]
    exact ⟨by omega, hpal⟩
  · obtain ⟨hp, hr, hb, hpal⟩ := table_entry_palindrome s n (2 * i) hs (by omega)
    unfold evenStart evenLength
    generalize (all_centered_palindromes s n).getD (2 * i) 0 = r at *
    have e1 : i - r / 2 = (2 * i - r) / 2 := by omega
    rw [e1]
    exact ⟨by omega, hpal⟩

/-- Every non-zero entry of `temp` is the length of a palindromic substring that
starts at its index and lies inside the input. -/
theorem temp_sound (s : List Char) (n j : Nat) (hs : s.length = n)
    (hpos : (collect (all_centered_palindromes s n) n).getD j 0 ≠ 0) :
    j + (collect (all_centered_palindromes s n) n).getD j 0 ≤ n ∧
      IsPalindrome s j ((collect (all_centered_palindromes s n) n).getD j 0) := by
  rw [collect_eq] at hpos ⊢
  rcases collectUpTo_origin (all_centered_palindromes s n) n n j with h | ⟨i, h1, h2, h3⟩
  · exact absurd h hpos
  · have hc := candidates_sound s n i hs h1 h2
    rcases h3 with ⟨e1, e2⟩ | ⟨e1, e2⟩
    · rw [← e2, ← e1]; exact hc.1
    · rw [← e2, ← e1]; exact hc.2

/-- A non-empty palindromic substring is recorded in `temp`: the entry of the
start of the largest palindrome with the same centre is at least its length. -/
theorem palindrome_recorded (s : List Char) (n a m : Nat) (hs : s.length = n) (ham : a + m ≤ n)
    (hm : 1 ≤ m) (hp : IsPalindrome s a m) :
    ∃ r, m ≤ r ∧ 2 * a + m + r ≤ 2 * n ∧ (2 * a + m + r) % 2 = 0 ∧
      r ≤ (collect (all_centered_palindromes s n) n).getD ((2 * a + m - r) / 2) 0 := by
  have hle := palindrome_le_table s n a m hs ham hp
  obtain ⟨hpar, hr, hb, -⟩ := table_entry_palindrome s n (2 * a + m) hs (by omega)
  refine ⟨_, hle, hb, hpar, ?_⟩
  rw [collect_eq]
  by_cases hodd : (2 * a + m) % 2 = 1
  · have hg := (collectUpTo_ge (all_centered_palindromes s n) n n ((2 * a + m + 1) / 2)
      (by omega) (by omega)).1
    unfold oddStart oddLength at hg
    rw [show 2 * ((2 * a + m + 1) / 2) - 1 = 2 * a + m by omega] at hg
    generalize (all_centered_palindromes s n).getD (2 * a + m) 0 = r at *
    have e1 : (2 * a + m + 1) / 2 - 1 - r / 2 = (2 * a + m - r) / 2 := by omega
    have e2 : r + 1 - r % 2 = r := by omega
    rw [e1, e2] at hg
    exact hg (by omega)
  · have hg := (collectUpTo_ge (all_centered_palindromes s n) n n ((2 * a + m) / 2)
      (by omega) (by omega)).2
    unfold evenStart evenLength at hg
    rw [show 2 * ((2 * a + m) / 2) = 2 * a + m by omega] at hg
    generalize (all_centered_palindromes s n).getD (2 * a + m) 0 = r at *
    have e1 : (2 * a + m) / 2 - r / 2 = (2 * a + m - r) / 2 := by omega
    rw [e1] at hg
    exact hg (by omega)

/-- The reported pair lies inside the input and is a palindromic substring. -/
theorem find_sound (s : List Char) (n : Nat) (hs : s.length = n) (hn : 1 ≤ n) :
    (find_longest_palindrome s n).start + (find_longest_palindrome s n).length ≤ n ∧
      IsPalindrome s (find_longest_palindrome s n).start (find_longest_palindrome s n).length := by
  rw [find_eq]
  obtain ⟨h1, h2, h3⟩ := pickUpTo_inv (collect (all_centered_palindromes s n) n) n
  rcases h3 with h | ⟨ha, hb, hc, hd⟩
  · rw [h]
    refine ⟨by simp only; omega, fun d hd => ?_⟩
    simp only at hd ⊢
    have : d = 0 := by omega
    subst this; rfl
  · rw [← hb]
    exact temp_sound s n _ hs (by omega)

/-- No palindromic substring of the input is longer than the reported length. -/
theorem find_maximal (s : List Char) (n a m : Nat) (hs : s.length = n) (ham : a + m ≤ n)
    (hp : IsPalindrome s a m) : m ≤ (find_longest_palindrome s n).length := by
  rw [find_eq]
  obtain ⟨h1, h2, h3⟩ := pickUpTo_inv (collect (all_centered_palindromes s n) n) n
  by_cases hm : 1 ≤ m
  · obtain ⟨r, hr1, hr2, hr3, hr4⟩ := palindrome_recorded s n a m hs ham hm hp
    have := h2 ((2 * a + m - r) / 2) (by omega)
    omega
  · omega

/-- No palindromic substring of the reported length starts before the reported
start. -/
theorem find_earliest (s : List Char) (n a : Nat) (hs : s.length = n)
    (ha : a + (find_longest_palindrome s n).length ≤ n)
    (hp : IsPalindrome s a (find_longest_palindrome s n).length) :
    (find_longest_palindrome s n).start ≤ a := by
  rw [find_eq] at ha hp ⊢
  obtain ⟨h1, h2, h3⟩ := pickUpTo_inv (collect (all_centered_palindromes s n) n) n
  rcases h3 with h | ⟨hlt, hb, hc, hd⟩
  · rw [h]; exact Nat.zero_le _
  · by_contra hcon
    obtain ⟨r, hr1, hr2, hr3, hr4⟩ := palindrome_recorded s n a _ hs ha h1 hp
    generalize (pickUpTo (collect (all_centered_palindromes s n) n) n).length = L at *
    have hle := h2 ((2 * a + L - r) / 2) (by omega)
    have hrL : r = L := by omega
    subst hrL
    rw [show (2 * a + r - r) / 2 = a by omega] at hr4
    have := hd a (by omega)
    omega

theorem naiveExpand_cond_iff {t : List Char} {len i r : Nat} (hlen : t.length = len)
    (h : IsRadius t len i r) :
    (r + 1 ≤ i ∧ i + (r + 1) < t.length ∧ t[i - (r + 1)]? = t[i + (r + 1)]?) ↔
      IsRadius t len i (r + 1) := by
  rw [isRadius_succ_iff h]
  unfold Fits
  constructor
  · rintro ⟨h1, h2, h3⟩
    refine ⟨⟨h1, by omega⟩, ?_⟩
    rw [List.getD_eq_getElem?_getD, List.getD_eq_getElem?_getD,
      show i + 1 + r = i + (r + 1) by omega, show i - 1 - r = i - (r + 1) by omega, h3]
  · rintro ⟨⟨h1, h2⟩, h3⟩
    refine ⟨h1, by omega, ?_⟩
    rw [getD_eq_getElem? t (i - (r + 1)) '#' (by omega),
      getD_eq_getElem? t (i + (r + 1)) '#' (by omega),
      show i + (r + 1) = i + 1 + r by omega, show i - (r + 1) = i - 1 - r by omega, h3]

theorem naiveExpand_spec (t : List Char) (len i : Nat) (hlen : t.length = len) :
    ∀ (fuel r : Nat), IsRadius t len i r → i - r < fuel →
      IsMaxRadius t len i (naiveExpand t i fuel r) := by
  intro fuel
  induction fuel with
  | zero => intro r _ h; omega
  | succ fuel ih =>
    intro r hr hf
    rw [naiveExpand]
    by_cases hc : r + 1 ≤ i ∧ i + (r + 1) < t.length ∧ t[i - (r + 1)]? = t[i + (r + 1)]?
    · rw [if_pos hc]
      exact ih (r + 1) ((naiveExpand_cond_iff hlen hr).1 hc) (by omega)
    · rw [if_neg hc]
      exact ⟨hr, fun h => hc ((naiveExpand_cond_iff hlen hr).2 h)⟩

theorem table_eq_naive (s : List Char) (n : Nat) :
    all_centered_palindromes s n = naive_table s n := by
  apply List.ext_getElem
  · rw [table_length, naive_table, List.length_map, List.length_range]
  · intro i h1 h2
    rw [table_length] at h1
    have hm := table_maxRadius s n i h1
    have hn := naiveExpand_spec (extend s n) (2 * n + 1) i (extend_length s n) (2 * n + 1) 0
      (isRadius_zero h1) (by omega)
    have e : (all_centered_palindromes s n)[i] = (all_centered_palindromes s n).getD i 0 := by
      rw [List.getD_eq_getElem?_getD, List.getElem?_eq_getElem (by rw [table_length]; exact h1)]
      rfl
    rw [e, hm.unique hn]
    simp [naive_table]

/-- Each iteration of the `for` loop raises `currR` by at least the number of
executions of the body of the `while` loop in that iteration. -/
theorem SweepInv.step_ticks {proc : List Char} {len m : Nat} {st : Sweep}
    (inv : SweepInv proc len m st) (hm : m < len) :
    (sweepStep proc len st m).ticks + st.currR ≤ (sweepStep proc len st m).currR + st.ticks := by
  obtain ⟨r, h1, h2, h3, h4⟩ := inv.step_shape hm
  have hlen := inv.length_eq
  have hgm : (st.result.set m r).getD m 0 = r := by
    rw [getD_set, if_pos ⟨rfl, by omega⟩]
  rw [h4]
  unfold edgeStep
  simp only [hgm]
  by_cases hup : m + r > st.currR
  · rw [if_pos hup]
    simp only
    by_cases hlt : seedValue st m < r
    · have := h3 hlt
      omega
    · omega
  · rw [if_neg hup]
    simp only
    by_cases hlt : seedValue st m < r
    · have := h3 hlt
      omega
    · omega

theorem find_earliest_longest (s : List Char) (n : Nat) (hs : s.length = n) (hn : 1 ≤ n) :
    IsEarliestLongest s (find_longest_palindrome s n) := by
  subst hs
  exact ⟨find_sound s _ rfl hn, fun a m ham hp => find_maximal s _ a m rfl ham hp,
    fun a ha hp => find_earliest s _ a rfl ha hp⟩

/-- In the last iteration of the first loop the even centre `2*n` has radius `0`,
so its candidate is recorded at index `n`, one past the last entry of `temp`. -/
theorem evenStart_last (s : List Char) (n : Nat) :
    evenStart (all_centered_palindromes s n) n = n ∧
      evenLength (all_centered_palindromes s n) n = 0 := by
  have hf := (table_maxRadius s n (2 * n) (by omega)).1.1
  unfold Fits at hf
  unfold evenStart evenLength
  omega

set_option maxRecDepth 100000 in
/-- Evaluation of the model on `"babad"`: the interleaved block, the radius
table with the final sweep state, the per-start table and the result. -/
theorem eval_babad :
    extend ['b', 'a', 'b', 'a', 'd'] 5 =
      ['#', 'b', '#', 'a', '#', 'b', '#', 'a', '#', 'd', '#'] ∧
    sweep (extend ['b', 'a', 'b', 'a', 'd'] 5) 11 =
      ⟨[0, 1, 0, 3, 0, 3, 0, 1, 0, 1, 0], 9, 10, 7⟩ ∧
    collect (all_centered_palindromes ['b', 'a', 'b', 'a', 'd'] 5) 5 = [3, 3, 0, 1, 1] ∧
    find_longest_palindrome ['b', 'a', 'b', 'a', 'd'] 5 = ⟨0, 3⟩ := by
  decide

/-! ## Settled properties -/

/-- Claim C1.  For an input `s` of length `n ≥ 1` without the separator, the pair
`(start, length)` returned by `find_longest_palindrome` lies inside the input and
the substring it denotes reads the same forward and backward: for every
`d < length` the cells `start + d` and `start + length - 1 - d` hold the same
symbol.  (The proof does not use the absence of the separator.) -/
theorem find_longest_palindrome_palindrome (s : List Char) (n : Nat) (hs : s.length = n)
    (hn : 1 ≤ n) (_hsep : ∀ c ∈ s, c ≠ '#') :
    (find_longest_palindrome s n).start + (find_longest_palindrome s n).length ≤ n ∧
    ∀ d, d < (find_longest_palindrome s n).length →
      ∃ c, s[(find_longest_palindrome s n).start + d]? = some c ∧
        s[(find_longest_palindrome s n).start + (find_longest_palindrome s n).length - 1 - d]?
          = some c := by
  obtain ⟨hb, hp⟩ := find_sound s n hs hn
  refine ⟨hb, fun d hd => ?_⟩
  have hlt : (find_longest_palindrome s n).start + d < s.length := by omega
  exact ⟨s[(find_longest_palindrome s n).start + d], List.getElem?_eq_getElem hlt,
    by rw [← hp d hd]; exact List.getElem?_eq_getElem hlt⟩

set_option maxRecDepth 100000 in
/-- Witness of C1 on the input `"cbbd"`. -/
theorem find_longest_palindrome_palindrome_witness :
    ((['c', 'b', 'b', 'd'] : List Char).length = 4 ∧ 1 ≤ 4 ∧
      ∀ c ∈ (['c', 'b', 'b', 'd'] : List Char), c ≠ '#') ∧
    ((find_longest_palindrome ['c', 'b', 'b', 'd'] 4).start +
        (find_longest_palindrome ['c', 'b', 'b', 'd'] 4).length ≤ 4 ∧
      ∀ d, d < (find_longest_palindrome ['c', 'b', 'b', 'd'] 4).length →
        ∃ c, (['c', 'b', 'b', 'd'] : List Char)[
            (find_longest_palindrome ['c', 'b', 'b', 'd'] 4).start + d]? = some c ∧
          (['c', 'b', 'b', 'd'] : List Char)[(find_longest_palindrome ['c', 'b', 'b', 'd'] 4).start +
            (find_longest_palindrome ['c', 'b', 'b', 'd'] 4).length - 1 - d]? = some c) :=
  ⟨⟨rfl, by decide, by decide⟩,
    find_longest_palindrome_palindrome ['c', 'b', 'b', 'd'] 4 rfl (by decide) (by decide)⟩

/-- Claim C2.  For an input `s` of length `n` without the separator, no contiguous
substring of `s` longer than the length returned by `find_longest_palindrome` is
a palindrome.  (The proof does not use the absence of the separator.) -/
theorem find_longest_palindrome_maximal (s : List Char) (n : Nat) (hs : s.length = n)
    (_hsep : ∀ c ∈ s, c ≠ '#') :
    ∀ a m, a + m ≤ n → (find_longest_palindrome s n).length < m → ¬ IsPalindrome s a m := by
  intro a m ham hlt hp
  have := find_maximal s n a m hs ham hp
  omega

set_option maxRecDepth 100000 in
/-- Witness of C2: `"cbbd"` gives `(1, 2)` and has no palindromic substring of
length above `2`. -/
theorem find_longest_palindrome_maximal_witness :
    ((['c', 'b', 'b', 'd'] : List Char).length = 4 ∧
      ∀ c ∈ (['c', 'b', 'b', 'd'] : List Char), c ≠ '#') ∧
    find_longest_palindrome ['c', 'b', 'b', 'd'] 4 = ⟨1, 2⟩ ∧
    ∀ a m, a + m ≤ 4 → (find_longest_palindrome ['c', 'b', 'b', 'd'] 4).length < m →
      ¬ IsPalindrome ['c', 'b', 'b', 'd'] a m :=
  ⟨⟨rfl, by decide⟩, by decide,
    find_longest_palindrome_maximal ['c', 'b', 'b', 'd'] 4 rfl (by decide)⟩

/-- Claim C3.  For an input `s` of length `n ≥ 1` without the separator, the
returned `start` is the smallest index at which a palindromic substring of the
returned length begins: the substring at `start` is a palindrome inside the
input, and every palindromic substring of that length starts at `start` or
later, and no palindromic substring is longer.  (The proof does not use the
absence of the separator.) -/
theorem find_longest_palindrome_earliest (s : List Char) (n : Nat) (hs : s.length = n)
    (hn : 1 ≤ n) (_hsep : ∀ c ∈ s, c ≠ '#') :
    ((find_longest_palindrome s n).start + (find_longest_palindrome s n).length ≤ n ∧
      IsPalindrome s (find_longest_palindrome s n).start (find_longest_palindrome s n).length) ∧
    (∀ a m, a + m ≤ n → IsPalindrome s a m → m ≤ (find_longest_palindrome s n).length) ∧
    ∀ a, a + (find_longest_palindrome s n).length ≤ n →
      IsPalindrome s a (find_longest_palindrome s n).length →
      (find_longest_palindrome s n).start ≤ a :=
  ⟨find_sound s n hs hn, fun a m ham hp => find_maximal s n a m hs ham hp,
    fun a ha hp => find_earliest s n a hs ha hp⟩

set_option maxRecDepth 100000 in
/-- Witness of C3: `"babad"` gives `(0, 3)`, not `(1, 3)`, although `"aba"` at
start `1` is a palindrome of the same length. -/
theorem find_longest_palindrome_earliest_witness :
    ((['b', 'a', 'b', 'a', 'd'] : List Char).length = 5 ∧ 1 ≤ 5 ∧
      ∀ c ∈ (['b', 'a', 'b', 'a', 'd'] : List Char), c ≠ '#') ∧
    find_longest_palindrome ['b', 'a', 'b', 'a', 'd'] 5 = ⟨0, 3⟩ ∧
    IsPalindrome ['b', 'a', 'b', 'a', 'd'] 1 3 ∧
    (((find_longest_palindrome ['b', 'a', 'b', 'a', 'd'] 5).start +
        (find_longest_palindrome ['b', 'a', 'b', 'a', 'd'] 5).length ≤ 5 ∧
      IsPalindrome ['b', 'a', 'b', 'a', 'd']
        (find_longest_palindrome ['b', 'a', 'b', 'a', 'd'] 5).start
        (find_longest_palindrome ['b', 'a', 'b', 'a', 'd'] 5).length) ∧
    (∀ a m, a + m ≤ 5 → IsPalindrome ['b', 'a', 'b', 'a', 'd'] a m →
      m ≤ (find_longest_palindrome ['b', 'a', 'b', 'a', 'd'] 5).length) ∧
    ∀ a, a + (find_longest_palindrome ['b', 'a', 'b', 'a', 'd'] 5).length ≤ 5 →
      IsPalindrome ['b', 'a', 'b', 'a', 'd'] a
        (find_longest_palindrome ['b', 'a', 'b', 'a', 'd'] 5).length →
      (find_longest_palindrome ['b', 'a', 'b', 'a', 'd'] 5).start ≤ a) :=
  ⟨⟨rfl, by decide, by decide⟩, by decide, by decide,
    find_longest_palindrome_earliest ['b', 'a', 'b', 'a', 'd'] 5 rfl (by decide) (by decide)⟩

/-- Counterexample to C4 as stated: on the empty input the returned pair is
`(0, 1)`, so `start + length = 1` exceeds `n = 0`. -/
theorem find_longest_palindrome_bounds_fail_empty :
    ¬ ((find_longest_palindrome [] 0).start + (find_longest_palindrome [] 0).length ≤ 0) := by
  decide

/-- Claim C4, amended to non-empty inputs.  For an input `s` of length `n ≥ 1` the
returned pair satisfies `0 ≤ start` and `start + length ≤ n`. -/
theorem find_longest_palindrome_bounds (s : List Char) (n : Nat) (hs : s.length = n)
    (hn : 1 ≤ n) :
    0 ≤ (find_longest_palindrome s n).start ∧
      (find_longest_palindrome s n).start + (find_longest_palindrome s n).length ≤ n :=
  ⟨Nat.zero_le _, (find_sound s n hs hn).1⟩

set_option maxRecDepth 100000 in
/-- Witness of the amended C4 on the one-symbol input `"a"`. -/
theorem find_longest_palindrome_bounds_witness :
    ((['a'] : List Char).length = 1 ∧ 1 ≤ 1) ∧
    (0 ≤ (find_longest_palindrome ['a'] 1).start ∧
      (find_longest_palindrome ['a'] 1).start + (find_longest_palindrome ['a'] 1).length ≤ 1) :=
  ⟨⟨rfl, by decide⟩, find_longest_palindrome_bounds ['a'] 1 rfl (by decide)⟩

/-- Claim C5.  Every entry of the table built by `all_centered_palindromes` is the
largest radius at its index of the interleaved block `t = extend s n` of length
`L = 2*n+1`: for every `d ≤ table[i]` the cells `i-d` and `i+d` exist and hold
the same symbol, and a further step is impossible because `i - table[i] - 1 < 0`,
or `i + table[i] + 1 > L - 1`, or the two cells beyond the radius differ.
Equivalently, the sweep computes the table of naive expansion from radius `0`
at every centre. -/
theorem all_centered_palindromes_maximal (s : List Char) (n : Nat) :
    (all_centered_palindromes s n).length = 2 * n + 1 ∧
    (∀ i, i < 2 * n + 1 →
      (∀ d, d ≤ (all_centered_palindromes s n).getD i 0 →
        d ≤ i ∧ i + d < 2 * n + 1 ∧ (extend s n)[i - d]? = (extend s n)[i + d]?) ∧
      (i < (all_centered_palindromes s n).getD i 0 + 1 ∨
        2 * n + 1 - 1 < i + (all_centered_palindromes s n).getD i 0 + 1 ∨
        (extend s n)[i - (all_centered_palindromes s n).getD i 0 - 1]? ≠
          (extend s n)[i + (all_centered_palindromes s n).getD i 0 + 1]?)) ∧
    all_centered_palindromes s n = naive_table s n := by
  refine ⟨table_length s n, fun i hi => ?_, table_eq_naive s n⟩
  have hm := table_maxRadius s n i hi
  have hl := extend_length s n
  generalize (all_centered_palindromes s n).getD i 0 = r at hm ⊢
  have hf := hm.1.1
  unfold Fits at hf
  constructor
  · intro d hd
    refine ⟨by omega, by omega, ?_⟩
    rw [getD_eq_getElem? _ (i - d) '#' (by omega), getD_eq_getElem? _ (i + d) '#' (by omega),
      hm.1.2 d hd]
  · by_cases h1 : i < r + 1
    · exact Or.inl h1
    · by_cases h2 : 2 * n + 1 - 1 < i + r + 1
      · exact Or.inr (Or.inl h2)
      · refine Or.inr (Or.inr fun he => hm.2 ((isRadius_succ_iff hm.1).2 ⟨⟨by omega, by omega⟩, ?_⟩))
        rw [getD_eq_getElem? _ (i - r - 1) '#' (by omega),
          getD_eq_getElem? _ (i + r + 1) '#' (by omega)] at he
        rw [show i + 1 + r = i + r + 1 by omega, show i - 1 - r = i - r - 1 by omega]
        exact (Option.some.inj he).symm

/-- Refutation of C6 as stated: no input that contains the separator makes
`find_longest_palindrome` return anything but the earliest longest palindromic
substring. -/
theorem no_separator_input_breaks_find :
    ¬ ∃ s : List Char, '#' ∈ s ∧
      ¬ IsEarliestLongest s (find_longest_palindrome s s.length) := by
  rintro ⟨s, hmem, hbad⟩
  exact hbad (find_earliest_longest s s.length rfl (List.length_pos_of_mem hmem))

/-- Claim C6, amended.  On every input that contains the separator `'#'`,
`find_longest_palindrome` still returns the earliest longest palindromic
substring of that input. -/
theorem find_longest_palindrome_with_separator (s : List Char) (n : Nat) (hs : s.length = n)
    (hmem : '#' ∈ s) : IsEarliestLongest s (find_longest_palindrome s n) :=
  find_earliest_longest s n hs (by rw [← hs]; exact List.length_pos_of_mem hmem)

set_option maxRecDepth 100000 in
/-- Witness of the amended C6 on the input `"a#b#"`, which gives `(1, 3)`. -/
theorem find_longest_palindrome_with_separator_witness :
    ((['a', '#', 'b', '#'] : List Char).length = 4 ∧ '#' ∈ (['a', '#', 'b', '#'] : List Char)) ∧
    find_longest_palindrome ['a', '#', 'b', '#'] 4 = ⟨1, 3⟩ ∧
    IsEarliestLongest ['a', '#', 'b', '#'] (find_longest_palindrome ['a', '#', 'b', '#'] 4) :=
  ⟨⟨rfl, by decide⟩, by decide,
    find_longest_palindrome_with_separator ['a', '#', 'b', '#'] 4 rfl (by decide)⟩

/-- Claim C7.  For `n = 0` the radius table is the single entry `[0]`, the
per-start table `temp` stays empty, and `find_longest_palindrome` returns the
initial default `(start = 0, length = 1)` unchanged. -/
theorem find_longest_palindrome_empty (s : List Char) :
    all_centered_palindromes s 0 = [0] ∧
    collect (all_centered_palindromes s 0) 0 = [] ∧
    find_longest_palindrome s 0 = ⟨0, 1⟩ :=
  ⟨rfl, rfl, rfl⟩

/-- Claim C8.  For an input `s` of length `n`, `extend s n` has length `2*n+1`, its
entry at index `2*k` is the separator for every `k ≤ n`, and its entry at index
`2*k+1` is `s[k]` for every `k < n`. -/
theorem extend_layout (s : List Char) (n : Nat) (hs : s.length = n) :
    (extend s n).length = 2 * n + 1 ∧
    (∀ k, k ≤ n → (extend s n)[2 * k]? = some '#') ∧
    (∀ k, k < n → (extend s n)[2 * k + 1]? = s[k]?) := by
  have hl := extend_length s n
  refine ⟨hl, fun k hk => ?_, fun k hk => ?_⟩
  · rw [getD_eq_getElem? _ (2 * k) '#' (by omega), extend_getD_even _ _ _ (by omega) (by omega)]
  · rw [getD_eq_getElem? _ (2 * k + 1) '#' (by omega),
      extend_getD_odd _ _ _ (by omega) (by omega), show (2 * k + 1) / 2 = k by omega,
      getD_eq_getElem? s k '#' (by omega)]

/-- Witness of C8 on the input `"abc"`. -/
theorem extend_layout_witness :
    (['a', 'b', 'c'] : List Char).length = 3 ∧
    extend ['a', 'b', 'c'] 3 = ['#', 'a', '#', 'b', '#', 'c', '#'] ∧
    ((extend ['a', 'b', 'c'] 3).length = 2 * 3 + 1 ∧
      (∀ k, k ≤ 3 → (extend ['a', 'b', 'c'] 3)[2 * k]? = some '#') ∧
      (∀ k, k < 3 → (extend ['a', 'b', 'c'] 3)[2 * k + 1]? = (['a', 'b', 'c'] : List Char)[k]?)) :=
  ⟨rfl, by decide, extend_layout ['a', 'b', 'c'] 3 rfl⟩

/-- Claim C9.  The table built by `all_centered_palindromes` has `2*n+1` entries
and every entry satisfies `0 ≤ table[i] ≤ min(i, 2*n - i)`; in particular
`table[0] = 0` and `table[2*n] = 0`. -/
theorem all_centered_palindromes_bounds (s : List Char) (n : Nat) :
    (all_centered_palindromes s n).length = 2 * n + 1 ∧
    (∀ i, i < 2 * n + 1 →
      0 ≤ (all_centered_palindromes s n).getD i 0 ∧
      (all_centered_palindromes s n).getD i 0 ≤ Nat.min i (2 * n - i)) ∧
    (all_centered_palindromes s n).getD 0 0 = 0 ∧
    (all_centered_palindromes s n).getD (2 * n) 0 = 0 := by
  have key : ∀ i, i < 2 * n + 1 → (all_centered_palindromes s n).getD i 0 ≤ i ∧
      (all_centered_palindromes s n).getD i 0 ≤ 2 * n - i := by
    intro i hi
    have hf := (table_maxRadius s n i hi).1.1
    unfold Fits at hf
    omega
  refine ⟨table_length s n, fun i hi => ⟨Nat.zero_le _, Nat.le_min.2 (key i hi)⟩, ?_, ?_⟩
  · have := key 0 (by omega); omega
  · have := key (2 * n) (by omega); omega

/-- Claim C10.  Over the whole sweep of `all_centered_palindromes` on an input of
length `n` the body of the extension `while` loop runs at most `2*n+1` times:
in every iteration of the `for` loop `currR` does not decrease and grows by at
least the number of executions of the body in that iteration, and `currR`
never exceeds `2*n`. -/
theorem extension_steps_bounded (s : List Char) (n : Nat) :
    (∀ m, m < 2 * n + 1 →
      (sweepUpTo (extend s n) (2 * n + 1) m).currR ≤
        (sweepUpTo (extend s n) (2 * n + 1) (m + 1)).currR ∧
      (sweepUpTo (extend s n) (2 * n + 1) (m + 1)).ticks -
          (sweepUpTo (extend s n) (2 * n + 1) m).ticks ≤
        (sweepUpTo (extend s n) (2 * n + 1) (m + 1)).currR -
          (sweepUpTo (extend s n) (2 * n + 1) m).currR) ∧
    (sweep (extend s n) (2 * n + 1)).currR ≤ 2 * n ∧
    (sweep (extend s n) (2 * n + 1)).ticks ≤ 2 * n + 1 := by
  have hR := sweep_currR_lt (extend s n) (2 * n + 1) (by omega)
  have hT := (sweep_inv (extend s n) (2 * n + 1)).ticks_le
  refine ⟨fun m hm => ?_, by omega, by omega⟩
  have inv := sweepUpTo_inv (extend s n) (2 * n + 1) m (by omega)
  have h1 := (inv.step hm).2
  have h2 := inv.step_ticks hm
  rw [sweepUpTo_succ]
  omega

/-! ## Further settled properties: special inputs, the sweep state, the extraction -/

theorem output_eta (o : output) (a b : Nat) (h1 : o.start = a) (h2 : o.length = b) :
    o = ⟨a, b⟩ := by
  cases o
  simp only at h1 h2
  rw [h1, h2]

theorem replicate_isPalindrome (n : Nat) (c : Char) : IsPalindrome (List.replicate n c) 0 n := by
  intro d hd
  rw [List.getElem?_replicate, List.getElem?_replicate, if_pos (by omega), if_pos (by omega)]

/-- A palindromic substring of length at least two holds two equal symbols at
distance one (even length) or two (odd length) around its centre. -/
theorem isPalindrome_inner (s : List Char) (a m : Nat) (hm : 2 ≤ m) (hp : IsPalindrome s a m) :
    ∃ i, ((i + 1 < a + m ∧ s[i]? = s[i + 1]?) ∨ (i + 2 < a + m ∧ s[i]? = s[i + 2]?)) := by
  by_cases he : m % 2 = 0
  · refine ⟨a + (m / 2 - 1), Or.inl ⟨by omega, ?_⟩⟩
    have := hp (m / 2 - 1) (by omega)
    rw [show a + m - 1 - (m / 2 - 1) = a + (m / 2 - 1) + 1 by omega] at this
    exact this
  · refine ⟨a + (m / 2 - 1), Or.inr ⟨by omega, ?_⟩⟩
    have := hp (m / 2 - 1) (by omega)
    rw [show a + m - 1 - (m / 2 - 1) = a + (m / 2 - 1) + 2 by omega] at this
    exact this

/-- Claim C11.  For every `n ≥ 1` and every symbol `c` other than the separator,
`find_longest_palindrome` returns `(0, n)` on the input made of `n` copies of
`c`.  (The proof does not use that `c` differs from the separator.) -/
theorem find_longest_palindrome_replicate (n : Nat) (c : Char) (hn : 1 ≤ n) (_hc : c ≠ '#') :
    find_longest_palindrome (List.replicate n c) n = ⟨0, n⟩ := by
  have hs : (List.replicate n c).length = n := List.length_replicate n c
  have h1 := (find_sound _ n hs hn).1
  have h2 := find_maximal _ n 0 n hs (by omega) (replicate_isPalindrome n c)
  exact output_eta _ _ _ (by omega) (by omega)

set_option maxRecDepth 100000 in
/-- Witness of C11: `"aaaa"` gives `(0, 4)`. -/
theorem find_longest_palindrome_replicate_witness :
    (1 ≤ 4 ∧ 'a' ≠ '#') ∧ find_longest_palindrome ['a', 'a', 'a', 'a'] 4 = ⟨0, 4⟩ :=
  ⟨⟨by decide, by decide⟩, find_longest_palindrome_replicate 4 'a' (by decide) (by decide)⟩

/-- Claim C12.  For an input `s` of length `n ≥ 1` without the separator in which
no two symbols at distance `1` or `2` are equal, `find_longest_palindrome`
returns exactly `(0, 1)`.  (The proof does not use the absence of the
separator.) -/
theorem find_longest_palindrome_no_repeat (s : List Char) (n : Nat) (hs : s.length = n)
    (hn : 1 ≤ n) (_hsep : ∀ c ∈ s, c ≠ '#')
    (h1 : ∀ i, i + 1 < n → s[i]? ≠ s[i + 1]?) (h2 : ∀ i, i + 2 < n → s[i]? ≠ s[i + 2]?) :
    find_longest_palindrome s n = ⟨0, 1⟩ := by
  obtain ⟨hb, hp⟩ := find_sound s n hs hn
  have hpos := (pickUpTo_inv (collect (all_centered_palindromes s n) n) n).1
  rw [← find_eq] at hpos
  have hlen : (find_longest_palindrome s n).length = 1 := by
    by_contra hne
    obtain ⟨i, h | h⟩ := isPalindrome_inner s _ _ (by omega) hp
    · exact h1 i (by omega) h.2
    · exact h2 i (by omega) h.2
  have hone : IsPalindrome s 0 1 := by
    intro d hd
    have : d = 0 := by omega
    subst this; rfl
  have hst := find_earliest s n 0 hs (by omega) (by rw [hlen]; exact hone)
  exact output_eta _ _ _ (by omega) hlen

set_option maxRecDepth 100000 in
/-- Witness of C12: `"a"` and `"abcde"` both give `(0, 1)`. -/
theorem find_longest_palindrome_no_repeat_witness :
    (((['a'] : List Char).length = 1 ∧ 1 ≤ 1 ∧ ∀ c ∈ (['a'] : List Char), c ≠ '#') ∧
      find_longest_palindrome ['a'] 1 = ⟨0, 1⟩) ∧
    (((['a', 'b', 'c', 'd', 'e'] : List Char).length = 5 ∧ 1 ≤ 5 ∧
        ∀ c ∈ (['a', 'b', 'c', 'd', 'e'] : List Char), c ≠ '#') ∧
      find_longest_palindrome ['a', 'b', 'c', 'd', 'e'] 5 = ⟨0, 1⟩) :=
  ⟨⟨⟨rfl, by decide, by decide⟩,
      find_longest_palindrome_no_repeat ['a'] 1 rfl (by decide) (by decide)
        (fun i hi => by omega) (fun i hi => by omega)⟩,
    ⟨⟨rfl, by decide, by decide⟩,
      find_longest_palindrome_no_repeat ['a', 'b', 'c', 'd', 'e'] 5 rfl (by decide) (by decide)
        (fun i hi => by
          have : i < 4 := by omega
          interval_cases i <;> decide)
        (fun i hi => by
          have : i < 3 := by omega
          interval_cases i <;> decide)⟩⟩

/-- Claim C13.  For every input of length `n ≥ 1` the length returned by
`find_longest_palindrome` is at least `1`. -/
theorem find_longest_palindrome_length_pos (s : List Char) (n : Nat) (_hs : s.length = n)
    (_hn : 1 ≤ n) : 1 ≤ (find_longest_palindrome s n).length := by
  rw [find_eq]
  exact (pickUpTo_inv (collect (all_centered_palindromes s n) n) n).1

set_option maxRecDepth 100000 in
/-- Witness of C13 on the input `"cbbd"`. -/
theorem find_longest_palindrome_length_pos_witness :
    ((['c', 'b', 'b', 'd'] : List Char).length = 4 ∧ 1 ≤ 4) ∧
      1 ≤ (find_longest_palindrome ['c', 'b', 'b', 'd'] 4).length :=
  ⟨⟨rfl, by decide⟩, find_longest_palindrome_length_pos ['c', 'b', 'b', 'd'] 4 rfl (by decide)⟩

set_option maxRecDepth 100000 in
/-- Claim C14, evaluated on the input `"a"` (`n = 1`).  The table is `[0, 1, 0]`;
in iteration `i = 1` the odd centre records at index `0`, but the even centre
`2` has radius `0`, so its start index is `1 - 0 = 1`, which is not an index
of the one-entry table `temp`. -/
theorem temp_index_out_of_range :
    all_centered_palindromes ['a'] 1 = [0, 1, 0] ∧
    oddStart (all_centered_palindromes ['a'] 1) 1 = 0 ∧
    evenStart (all_centered_palindromes ['a'] 1) 1 = 1 ∧
    (collect (all_centered_palindromes ['a'] 1) 1).length = 1 ∧
    ¬ evenStart (all_centered_palindromes ['a'] 1) 1 < 1 := by
  decide

theorem extendLoop_of_cond_false (proc : List Char) (len i : Nat) (st : Sweep)
    (h : extendCond proc len i st = false) :
    ∀ fuel, extendLoop proc len i fuel st = st := by
  intro fuel
  cases fuel with
  | zero => rfl
  | succ fuel => rw [extendLoop, if_neg (by rw [h]; decide)]

/-- The `while` loop never lowers `result[i]` and never touches `currC` or `currR`,
whatever the fuel. -/
theorem extendLoop_frame (proc : List Char) (len i : Nat) :
    ∀ (fuel : Nat) (st : Sweep), i < st.result.length →
      st.result.getD i 0 ≤ (extendLoop proc len i fuel st).result.getD i 0 ∧
      (extendLoop proc len i fuel st).currR = st.currR ∧
      (extendLoop proc len i fuel st).currC = st.currC := by
  intro fuel
  induction fuel with
  | zero => intro st _; exact ⟨Nat.le_refl _, rfl, rfl⟩
  | succ fuel ih =>
    intro st hi
    rw [extendLoop]
    by_cases hc : extendCond proc len i st = true
    · rw [if_pos hc]
      obtain ⟨h1, h2, h3⟩ := ih
        { st with result := st.result.set i (st.result.getD i 0 + 1), ticks := st.ticks + 1 }
        (by rw [List.length_set]; exact hi)
      have hget : (st.result.set i (st.result.getD i 0 + 1)).getD i 0 = st.result.getD i 0 + 1 := by
        rw [getD_set, if_pos ⟨rfl, hi⟩]
      simp only [hget] at h1
      exact ⟨by omega, h2, h3⟩
    · rw [if_neg hc]
      exact ⟨Nat.le_refl _, rfl, rfl⟩

theorem seedStep_getD (st : Sweep) (i : Nat) (hi : i < st.result.length) :
    (seedStep st i).result.getD i 0 = seedValue st i := by
  rw [seedStep_eq]
  simp only
  rw [getD_set, if_pos ⟨rfl, hi⟩]

/-- Under the invariant, the condition of the `while` loop can hold, at any
moment of iteration `m`, only when `m + result[m]` has reached `currR`. -/
theorem SweepInv.cond_reaches_edge {proc : List Char} {len m : Nat} {st : Sweep}
    (inv : SweepInv proc len m st) (hm : m < len) (k : Nat)
    (hc : extendCond proc len m (extendLoop proc len m k (seedStep st m)) = true) :
    st.currR ≤ m + (extendLoop proc len m k (seedStep st m)).result.getD m 0 := by
  have hlen := inv.length_eq
  have hsl : m < (seedStep st m).result.length := by
    rw [seedStep_eq]; simp only; rw [List.length_set]; omega
  have hmono := (extendLoop_frame proc len m k (seedStep st m) hsl).1
  rw [seedStep_getD st m (by omega)] at hmono
  by_contra hlt
  have htight := inv.seed_tight hm (by omega)
  have hfalse : extendCond proc len m (seedStep st m) = false := by
    cases hcs : extendCond proc len m (seedStep st m) with
    | false => rfl
    | true =>
      have hr : IsRadius proc len m ((seedStep st m).result.getD m 0) := by
        rw [seedStep_getD st m (by omega)]; exact htight.1
      have := (extendCond_iff hr).1 hcs
      rw [seedStep_getD st m (by omega)] at this
      exact absurd this htight.2
  rw [extendLoop_of_cond_false proc len m _ hfalse k, hfalse] at hc
  exact absurd hc (by decide)

/-- Under the invariant, a mirror entry strictly below `currR - m` is taken over
unchanged: the `while` loop does nothing and the seed is the largest radius. -/
theorem SweepInv.mirror_is_final {proc : List Char} {len m : Nat} {st : Sweep}
    (inv : SweepInv proc len m st) (hm : m < len)
    (hlt : st.result.getD (2 * st.currC - m) 0 < st.currR - m) :
    seedValue st m = st.result.getD (2 * st.currC - m) 0 ∧
    extendLoop proc len m len (seedStep st m) = seedStep st m ∧
    IsMaxRadius proc len m (st.result.getD (2 * st.currC - m) 0) := by
  have hlen := inv.length_eq
  have hv : seedValue st m = st.result.getD (2 * st.currC - m) 0 := by
    unfold seedValue
    rw [if_pos (by omega)]
    unfold min
    rw [if_neg (by omega)]
  have htight := inv.seed_tight hm (by omega)
  have hfalse : extendCond proc len m (seedStep st m) = false := by
    cases hcs : extendCond proc len m (seedStep st m) with
    | false => rfl
    | true =>
      have hr : IsRadius proc len m ((seedStep st m).result.getD m 0) := by
        rw [seedStep_getD st m (by omega)]; exact htight.1
      have := (extendCond_iff hr).1 hcs
      rw [seedStep_getD st m (by omega)] at this
      exact absurd this htight.2
  exact ⟨hv, extendLoop_of_cond_false proc len m _ hfalse len, by rw [← hv]; exact htight⟩

theorem sweepBefore_inv (s : List Char) (n m : Nat) (hm : m ≤ 2 * n + 1) :
    SweepInv (extend s n) (2 * n + 1) m (sweepBefore s n m) :=
  sweepUpTo_inv (extend s n) (2 * n + 1) m hm

theorem sweepBefore_succ (s : List Char) (n m : Nat) :
    sweepBefore s n (m + 1) = sweepStep (extend s n) (2 * n + 1) (sweepBefore s n m) m :=
  sweepUpTo_succ (extend s n) (2 * n + 1) m

theorem extendLoop_length (proc : List Char) (len i : Nat) :
    ∀ (fuel : Nat) (st : Sweep), (extendLoop proc len i fuel st).result.length = st.result.length := by
  intro fuel
  induction fuel with
  | zero => intro st; rfl
  | succ fuel ih =>
    intro st
    rw [extendLoop]
    by_cases hc : extendCond proc len i st = true
    · rw [if_pos hc, ih]
      simp only
      rw [List.length_set]
    · rw [if_neg hc]

theorem loopState_length (s : List Char) (n m k : Nat) (hm : m ≤ 2 * n + 1) :
    (loopState s n m k).result.length = 2 * n + 1 := by
  rw [loopState, extendLoop_length, seedStep_eq]
  simp only
  rw [List.length_set]
  exact (sweepBefore_inv s n m hm).length_eq

/-- Claim C15.  In iteration `m` of the sweep, whenever the condition of the
extension `while` loop holds (so that its body runs), `m + result[m] ≥ currR`
holds at that moment.  Equivalently, when the mirror entry
`result[2*currC - m]` is strictly below `currR - m`, the loop performs no
increment, and the seed, which is that mirror entry, is already the largest
radius at `m` and the final table entry. -/
theorem extension_only_at_edge (s : List Char) (n m : Nat) (hm : m < 2 * n + 1) :
    (∀ k, extendCond (extend s n) (2 * n + 1) m (loopState s n m k) = true →
      (sweepBefore s n m).currR ≤ m + (loopState s n m k).result.getD m 0) ∧
    ((sweepBefore s n m).result.getD (2 * (sweepBefore s n m).currC - m) 0 <
        (sweepBefore s n m).currR - m →
      (loopState s n m 0).result.getD m 0 =
        (sweepBefore s n m).result.getD (2 * (sweepBefore s n m).currC - m) 0 ∧
      loopState s n m (2 * n + 1) = loopState s n m 0 ∧
      IsMaxRadius (extend s n) (2 * n + 1) m
        ((sweepBefore s n m).result.getD (2 * (sweepBefore s n m).currC - m) 0) ∧
      (all_centered_palindromes s n).getD m 0 =
        (sweepBefore s n m).result.getD (2 * (sweepBefore s n m).currC - m) 0) := by
  have inv := sweepBefore_inv s n m (by omega)
  refine ⟨fun k hc => inv.cond_reaches_edge hm k hc, fun hlt => ?_⟩
  obtain ⟨h1, h2, h3⟩ := inv.mirror_is_final hm hlt
  refine ⟨?_, h2, h3, (table_maxRadius s n m hm).unique h3⟩
  show (seedStep (sweepBefore s n m) m).result.getD m 0 = _
  rw [seedStep_getD _ _ (by rw [inv.length_eq]; exact hm), h1]

set_option maxRecDepth 100000 in
/-- Witness of C15 on `"babad"` at index `4`, where the mirror entry `result[2]`
is `0 < currR - 4 = 2`; at index `3` the loop runs with `3 + 0 ≥ currR = 2`. -/
theorem extension_only_at_edge_witness :
    (4 < 2 * 5 + 1 ∧
      (sweepBefore ['b', 'a', 'b', 'a', 'd'] 5 4).result.getD
          (2 * (sweepBefore ['b', 'a', 'b', 'a', 'd'] 5 4).currC - 4) 0 <
        (sweepBefore ['b', 'a', 'b', 'a', 'd'] 5 4).currR - 4 ∧
      extendCond (extend ['b', 'a', 'b', 'a', 'd'] 5) (2 * 5 + 1) 3
        (loopState ['b', 'a', 'b', 'a', 'd'] 5 3 0) = true) ∧
    ((∀ k, extendCond (extend ['b', 'a', 'b', 'a', 'd'] 5) (2 * 5 + 1) 4
          (loopState ['b', 'a', 'b', 'a', 'd'] 5 4 k) = true →
        (sweepBefore ['b', 'a', 'b', 'a', 'd'] 5 4).currR ≤
          4 + (loopState ['b', 'a', 'b', 'a', 'd'] 5 4 k).result.getD 4 0) ∧
      ((sweepBefore ['b', 'a', 'b', 'a', 'd'] 5 4).result.getD
            (2 * (sweepBefore ['b', 'a', 'b', 'a', 'd'] 5 4).currC - 4) 0 <
          (sweepBefore ['b', 'a', 'b', 'a', 'd'] 5 4).currR - 4 →
        (loopState ['b', 'a', 'b', 'a', 'd'] 5 4 0).result.getD 4 0 =
          (sweepBefore ['b', 'a', 'b', 'a', 'd'] 5 4).result.getD
            (2 * (sweepBefore ['b', 'a', 'b', 'a', 'd'] 5 4).currC - 4) 0 ∧
        loopState ['b', 'a', 'b', 'a', 'd'] 5 4 (2 * 5 + 1) =
          loopState ['b', 'a', 'b', 'a', 'd'] 5 4 0 ∧
        IsMaxRadius (extend ['b', 'a', 'b', 'a', 'd'] 5) (2 * 5 + 1) 4
          ((sweepBefore ['b', 'a', 'b', 'a', 'd'] 5 4).result.getD
            (2 * (sweepBefore ['b', 'a', 'b', 'a', 'd'] 5 4).currC - 4) 0) ∧
        (all_centered_palindromes ['b', 'a', 'b', 'a', 'd'] 5).getD 4 0 =
          (sweepBefore ['b', 'a', 'b', 'a', 'd'] 5 4).result.getD
            (2 * (sweepBefore ['b', 'a', 'b', 'a', 'd'] 5 4).currC - 4) 0)) :=
  ⟨⟨by decide, by decide, by decide⟩,
    extension_only_at_edge ['b', 'a', 'b', 'a', 'd'] 5 4 (by decide)⟩

/-- Claim C16.  Sweep-state invariant of `all_centered_palindromes`: `currR` does
not decrease from one iteration to the next, and after index `m` has been
processed `currR = currC + result[currC]` is the maximum of `j + result[j]`
over `j ≤ m`, with `currC ≤ m` the smallest index that attains it. -/
theorem sweep_edge_invariant (s : List Char) (n m : Nat) (hm : m < 2 * n + 1) :
    (sweepBefore s n m).currR ≤ (sweepBefore s n (m + 1)).currR ∧
    (sweepBefore s n (m + 1)).currR =
      (sweepBefore s n (m + 1)).currC +
        (sweepBefore s n (m + 1)).result.getD (sweepBefore s n (m + 1)).currC 0 ∧
    (∀ j, j ≤ m →
      j + (sweepBefore s n (m + 1)).result.getD j 0 ≤ (sweepBefore s n (m + 1)).currR) ∧
    (sweepBefore s n (m + 1)).currC ≤ m ∧
    (∀ j, j ≤ m →
      j + (sweepBefore s n (m + 1)).result.getD j 0 = (sweepBefore s n (m + 1)).currR →
      (sweepBefore s n (m + 1)).currC ≤ j) := by
  have inv := sweepBefore_inv s n m (by omega)
  have inv1 := sweepBefore_inv s n (m + 1) (by omega)
  have hstep := (inv.step hm).2
  rw [← sweepBefore_succ] at hstep
  refine ⟨hstep, inv1.edge, fun j hj => inv1.reach j (by omega), ?_,
    fun j hj => inv1.first j (by omega)⟩
  rcases inv1.center with h | ⟨h, _⟩ <;> omega

set_option maxRecDepth 100000 in
/-- Witness of C16 on `"babad"` after index `3`: `currC = 3`, `currR = 6`. -/
theorem sweep_edge_invariant_witness :
    (3 < 2 * 5 + 1 ∧ (sweepBefore ['b', 'a', 'b', 'a', 'd'] 5 (3 + 1)).currC = 3 ∧
      (sweepBefore ['b', 'a', 'b', 'a', 'd'] 5 (3 + 1)).currR = 6) ∧
    ((sweepBefore ['b', 'a', 'b', 'a', 'd'] 5 3).currR ≤
        (sweepBefore ['b', 'a', 'b', 'a', 'd'] 5 (3 + 1)).currR ∧
      (sweepBefore ['b', 'a', 'b', 'a', 'd'] 5 (3 + 1)).currR =
        (sweepBefore ['b', 'a', 'b', 'a', 'd'] 5 (3 + 1)).currC +
          (sweepBefore ['b', 'a', 'b', 'a', 'd'] 5 (3 + 1)).result.getD
            (sweepBefore ['b', 'a', 'b', 'a', 'd'] 5 (3 + 1)).currC 0 ∧
      (∀ j, j ≤ 3 →
        j + (sweepBefore ['b', 'a', 'b', 'a', 'd'] 5 (3 + 1)).result.getD j 0 ≤
          (sweepBefore ['b', 'a', 'b', 'a', 'd'] 5 (3 + 1)).currR) ∧
      (sweepBefore ['b', 'a', 'b', 'a', 'd'] 5 (3 + 1)).currC ≤ 3 ∧
      (∀ j, j ≤ 3 →
        j + (sweepBefore ['b', 'a', 'b', 'a', 'd'] 5 (3 + 1)).result.getD j 0 =
          (sweepBefore ['b', 'a', 'b', 'a', 'd'] 5 (3 + 1)).currR →
        (sweepBefore ['b', 'a', 'b', 'a', 'd'] 5 (3 + 1)).currC ≤ j)) :=
  ⟨⟨by decide, by decide, by decide⟩,
    sweep_edge_invariant ['b', 'a', 'b', 'a', 'd'] 5 3 (by decide)⟩

/-- Claim C17.  Every array access of the sweep of `all_centered_palindromes` is
in bounds: the block and the table have `L = 2*n+1` cells throughout; when the
seed branch is taken (`currR > m`) the mirror index `2*currC - m` is a real
index with `0 ≤ 2*currC - m < m`; and whenever `valid(L, m, 1 + r)` holds, the
two compared cells `m - 1 - r` and `m + 1 + r` lie in `0 .. L-1`. -/
theorem sweep_accesses_in_bounds (s : List Char) (n m : Nat) (hm : m < 2 * n + 1) :
    ((extend s n).length = 2 * n + 1 ∧ ∀ k, (loopState s n m k).result.length = 2 * n + 1) ∧
    ((sweepBefore s n m).currR > m →
      m ≤ 2 * (sweepBefore s n m).currC ∧ 2 * (sweepBefore s n m).currC - m < m) ∧
    (∀ r, valid (2 * n + 1) m (1 + r) = true → 1 + r ≤ m ∧ m + 1 + r ≤ 2 * n + 1 - 1) := by
  have inv := sweepBefore_inv s n m (by omega)
  refine ⟨⟨extend_length s n, fun k => loopState_length s n m k (by omega)⟩, fun h => ?_,
    fun r hv => ?_⟩
  · obtain ⟨-, h1, h2, -⟩ := inv.mirror_facts h
    exact ⟨h1, h2⟩
  · have := (valid_iff _ _ _).1 hv
    unfold Fits at this
    omega

set_option maxRecDepth 100000 in
/-- Witness of C17 on `"babad"` at index `4`, where the seed branch is taken with
`currC = 3`, `currR = 6` and mirror index `2`. -/
theorem sweep_accesses_in_bounds_witness :
    (4 < 2 * 5 + 1 ∧ (sweepBefore ['b', 'a', 'b', 'a', 'd'] 5 4).currR > 4) ∧
    (((extend ['b', 'a', 'b', 'a', 'd'] 5).length = 2 * 5 + 1 ∧
        ∀ k, (loopState ['b', 'a', 'b', 'a', 'd'] 5 4 k).result.length = 2 * 5 + 1) ∧
      ((sweepBefore ['b', 'a', 'b', 'a', 'd'] 5 4).currR > 4 →
        4 ≤ 2 * (sweepBefore ['b', 'a', 'b', 'a', 'd'] 5 4).currC ∧
          2 * (sweepBefore ['b', 'a', 'b', 'a', 'd'] 5 4).currC - 4 < 4) ∧
      (∀ r, valid (2 * 5 + 1) 4 (1 + r) = true → 1 + r ≤ 4 ∧ 4 + 1 + r ≤ 2 * 5 + 1 - 1)) :=
  ⟨⟨by decide, by decide⟩, sweep_accesses_in_bounds ['b', 'a', 'b', 'a', 'd'] 5 4 (by decide)⟩

/-- Claim C18.  For an input `s` of length `n` without the separator and every
`k` in `1 .. n`, both candidates derived from the table are palindromic
substrings inside the input.  With `r = table[2k-1]`, the odd-centre candidate
`start = k-1-r/2`, `length = r+1-(r mod 2)` has `0 ≤ start` (the subtraction is
exact), `start + length ≤ n`, is a palindrome, and is centred on symbol `k-1`
(`2*start + length = 2k-1`).  With `r = table[2k]`, the even-centre candidate
`start = k-r/2`, `length = r` has `start + length ≤ n`, is a palindrome, and is
centred on the gap between the symbols `k-1` and `k` (`2*start + length = 2k`).
(The proof does not use the absence of the separator.) -/
theorem candidates_are_palindromes (s : List Char) (n k : Nat) (hs : s.length = n)
    (hk1 : 1 ≤ k) (hk2 : k ≤ n) (_hsep : ∀ c ∈ s, c ≠ '#') :
    ((all_centered_palindromes s n).getD (2 * k - 1) 0 / 2 ≤ k - 1 ∧
      oddStart (all_centered_palindromes s n) k + oddLength (all_centered_palindromes s n) k ≤ n ∧
      IsPalindrome s (oddStart (all_centered_palindromes s n) k)
        (oddLength (all_centered_palindromes s n) k) ∧
      2 * oddStart (all_centered_palindromes s n) k + oddLength (all_centered_palindromes s n) k
        = 2 * k - 1) ∧
    ((all_centered_palindromes s n).getD (2 * k) 0 / 2 ≤ k ∧
      evenStart (all_centered_palindromes s n) k + evenLength (all_centered_palindromes s n) k ≤ n ∧
      IsPalindrome s (evenStart (all_centered_palindromes s n) k)
        (evenLength (all_centered_palindromes s n) k) ∧
      2 * evenStart (all_centered_palindromes s n) k + evenLength (all_centered_palindromes s n) k
        = 2 * k) := by
  obtain ⟨⟨ho1, ho2⟩, ⟨he1, he2⟩⟩ := candidates_sound s n k hs hk1 hk2
  obtain ⟨hp, hr, hb, -⟩ := table_entry_palindrome s n (2 * k - 1) hs (by omega)
  obtain ⟨hp', hr', hb', -⟩ := table_entry_palindrome s n (2 * k) hs (by omega)
  refine ⟨⟨by omega, ho1, ho2, ?_⟩, ⟨by omega, he1, he2, ?_⟩⟩
  · unfold oddStart oddLength
    omega
  · unfold evenStart evenLength
    omega

set_option maxRecDepth 100000 in
/-- Witness of C18 on `"cbbd"` at `k = 2`: the odd centre gives `(1, 1)` and the
even centre gives `(1, 2)`, the substring `"bb"`. -/
theorem candidates_are_palindromes_witness :
    ((['c', 'b', 'b', 'd'] : List Char).length = 4 ∧ 1 ≤ 2 ∧ 2 ≤ 4 ∧
      (∀ c ∈ (['c', 'b', 'b', 'd'] : List Char), c ≠ '#') ∧
      oddStart (all_centered_palindromes ['c', 'b', 'b', 'd'] 4) 2 = 1 ∧
      oddLength (all_centered_palindromes ['c', 'b', 'b', 'd'] 4) 2 = 1 ∧
      evenStart (all_centered_palindromes ['c', 'b', 'b', 'd'] 4) 2 = 1 ∧
      evenLength (all_centered_palindromes ['c', 'b', 'b', 'd'] 4) 2 = 2) ∧
    (((all_centered_palindromes ['c', 'b', 'b', 'd'] 4).getD (2 * 2 - 1) 0 / 2 ≤ 2 - 1 ∧
        oddStart (all_centered_palindromes ['c', 'b', 'b', 'd'] 4) 2 +
          oddLength (all_centered_palindromes ['c', 'b', 'b', 'd'] 4) 2 ≤ 4 ∧
        IsPalindrome ['c', 'b', 'b', 'd'] (oddStart (all_centered_palindromes ['c', 'b', 'b', 'd'] 4) 2)
          (oddLength (all_centered_palindromes ['c', 'b', 'b', 'd'] 4) 2) ∧
        2 * oddStart (all_centered_palindromes ['c', 'b', 'b', 'd'] 4) 2 +
          oddLength (all_centered_palindromes ['c', 'b', 'b', 'd'] 4) 2 = 2 * 2 - 1) ∧
      ((all_centered_palindromes ['c', 'b', 'b', 'd'] 4).getD (2 * 2) 0 / 2 ≤ 2 ∧
        evenStart (all_centered_palindromes ['c', 'b', 'b', 'd'] 4) 2 +
          evenLength (all_centered_palindromes ['c', 'b', 'b', 'd'] 4) 2 ≤ 4 ∧
        IsPalindrome ['c', 'b', 'b', 'd'] (evenStart (all_centered_palindromes ['c', 'b', 'b', 'd'] 4) 2)
          (evenLength (all_centered_palindromes ['c', 'b', 'b', 'd'] 4) 2) ∧
        2 * evenStart (all_centered_palindromes ['c', 'b', 'b', 'd'] 4) 2 +
          evenLength (all_centered_palindromes ['c', 'b', 'b', 'd'] 4) 2 = 2 * 2)) :=
  ⟨⟨rfl, by decide, by decide, by decide, by decide, by decide, by decide, by decide⟩,
    candidates_are_palindromes ['c', 'b', 'b', 'd'] 4 2 rfl (by decide) (by decide) (by decide)⟩

/-- Claim C19.  For every input of length `n`, with or without the separator, the
table built by `all_centered_palindromes` holds an odd entry at every odd index
and an even entry at every even index; hence the parity correction of the
extraction is the identity: `all[2i-1] + 1 - (all[2i-1] & 1) = all[2i-1]` for
every `i` in `1 .. n`. -/
theorem table_parity (s : List Char) (n : Nat) :
    (∀ i, i < 2 * n + 1 → (all_centered_palindromes s n).getD i 0 % 2 = i % 2) ∧
    (∀ i, 1 ≤ i → i ≤ n →
      oddLength (all_centered_palindromes s n) i =
        (all_centered_palindromes s n).getD (2 * i - 1) 0) := by
  have key : ∀ i, i < 2 * n + 1 → (all_centered_palindromes s n).getD i 0 % 2 = i % 2 := by
    intro i hi
    have := extend_maxRadius_parity s n i _ (table_maxRadius s n i hi)
    omega
  refine ⟨key, fun i h1 h2 => ?_⟩
  have := key (2 * i - 1) (by omega)
  unfold oddLength
  omega

/-- Claim C20.  After the first loop of `find_longest_palindrome` the table `temp`
has `n` entries and, for every start `j < n`, `temp[j]` is the maximum of the
lengths of all candidates (odd-centre and even-centre, `i = 1 .. n`) whose
computed start is `j`: it dominates each of them and is one of them, or is `0`
(which is the case when there is none).  A candidate recorded later never
lowers an entry. -/
theorem collect_is_maximum (s : List Char) (n : Nat) :
    (collect (all_centered_palindromes s n) n).length = n ∧
    (∀ j, j < n →
      (∀ i, 1 ≤ i → i ≤ n →
        (oddStart (all_centered_palindromes s n) i = j →
          oddLength (all_centered_palindromes s n) i ≤
            (collect (all_centered_palindromes s n) n).getD j 0) ∧
        (evenStart (all_centered_palindromes s n) i = j →
          evenLength (all_centered_palindromes s n) i ≤
            (collect (all_centered_palindromes s n) n).getD j 0)) ∧
      ((collect (all_centered_palindromes s n) n).getD j 0 = 0 ∨
        ∃ i, 1 ≤ i ∧ i ≤ n ∧
          ((oddStart (all_centered_palindromes s n) i = j ∧
              oddLength (all_centered_palindromes s n) i =
                (collect (all_centered_palindromes s n) n).getD j 0) ∨
            (evenStart (all_centered_palindromes s n) i = j ∧
              evenLength (all_centered_palindromes s n) i =
                (collect (all_centered_palindromes s n) n).getD j 0)))) ∧
    (∀ (temp : List Nat) (a v j : Nat), temp.getD j 0 ≤ (record temp a v).getD j 0) ∧
    (∀ m j, (collectUpTo (all_centered_palindromes s n) n m).getD j 0 ≤
      (collectUpTo (all_centered_palindromes s n) n (m + 1)).getD j 0) := by
  refine ⟨collectUpTo_length _ n n, fun j hj => ⟨fun i h1 h2 => ?_, ?_⟩, record_mono,
    fun m j => ?_⟩
  · obtain ⟨ho, he⟩ := collectUpTo_ge (all_centered_palindromes s n) n n i h1 h2
    exact ⟨fun h => by subst h; exact ho hj, fun h => by subst h; exact he hj⟩
  · exact collectUpTo_origin (all_centered_palindromes s n) n n j
  · rw [collectUpTo_succ]
    exact collectStep_mono _ _ _ _

end Palindrome
